import Mathlib

/-!
# Verification of the postgrace MySQL-to-PostgreSQL rewrite pipeline

This file gives a shallow embedding of `convert_mysql_to_postgresql`
(`src/postgrace.py`), the regex-driven dialect rewrite pipeline, and proves
or refutes the specification's claims about it.

Text is modelled as `List Char`.  Each `re.sub` call of the source becomes a
left-to-right scanner (`subst`) driven by a matcher that reproduces the
backtracking behaviour of the concrete pattern at one position.  The
character classes `\w`, `\s` and `\d` are modelled for the text actually
exercised by the pipeline (ASCII); Python's case-insensitive matching is
`Char.toLower`-based comparison.
-/

namespace Postgrace

/-- Text as Python sees it: a sequence of characters. -/
abbrev Str := List Char

/-- The backtick character (code 96), written numerically. -/
def tickC : Char := Char.ofNat 96

/-- The double-quote character (code 34). -/
def dquoteC : Char := Char.ofNat 34

/-- The single-quote character (code 39). -/
def squoteC : Char := Char.ofNat 39

/-- Python regex `\w` on ASCII text: letters, digits and underscore. -/
def isWordChar (c : Char) : Bool := c.isAlphanum || c = '_'

/-- Python regex `\s` on ASCII text: the six whitespace characters. -/
def isSpaceChar (c : Char) : Bool :=
  c = ' ' || c = '\t' || c = '\n' || c = '\r' || c = Char.ofNat 11 || c = Char.ofNat 12

/-- Case-insensitive literal match: `pat` is given in lower case; on success
returns the text after the matched characters. -/
def dropLitCI : Str → Str → Option Str
  | [], rest => some rest
  | _ :: _, [] => none
  | p :: ps, c :: cs => if c.toLower = p then dropLitCI ps cs else none

/-- Word-boundary test for a `\b` that precedes a word character: the
character before the current position is absent or not a word character. -/
def bdry : Option Char → Bool
  | none => true
  | some c => !(isWordChar c)

/-- Word-boundary test for a `\b` (or `(?!\w)`) after a word character: the
next character is absent or not a word character. -/
def notWordNext : Str → Bool
  | [] => true
  | c :: _ => !(isWordChar c)

/-- Does `pat` occur at the head of the text? -/
def leadsWith : Str → Str → Bool
  | [], _ => true
  | _ :: _, [] => false
  | p :: ps, c :: cs => p = c && leadsWith ps cs

/-- Does `pat` occur anywhere in the text? -/
def occursIn (pat : Str) : Str → Bool
  | [] => pat.isEmpty
  | c :: cs => leadsWith pat (c :: cs) || occursIn pat cs

/-- One pass of `re.sub`: scan left to right; at each position ask the
matcher for a replacement and the rest of the text after the match; where
the matcher fails, keep the character.  `prev` is the character before the
current position in the original text, used by `\b` look-behinds.  The fuel
is the initial text length; every matcher consumes at least one character,
so the fuel never runs out. -/
def subst (m : Option Char → Str → Option (Str × Str)) : Nat → Option Char → Str → Str
  | 0, _, l => l
  | _ + 1, _, [] => []
  | fuel + 1, prev, c :: cs =>
    match m prev (c :: cs) with
    | some (repl, rest) =>
      repl ++ subst m fuel (((c :: cs).take ((c :: cs).length - rest.length)).getLast?) rest
    | none => c :: subst m fuel (some c) cs

/-- Run one `re.sub` pass over a whole text. -/
def runSub (m : Option Char → Str → Option (Str × Str)) (l : Str) : Str :=
  subst m l.length none l

/-! ## Rule 1 — backtick-quoted identifiers (line 24)

`re.sub(r'X(.*?)X', r'"\1"', s)` with `X` the backtick: a non-greedy pair of
backticks whose inner text cannot span a newline (the dot excludes it). -/

/-- Inner text of a backtick pair: characters up to the first closing
backtick, failing on a newline or the end of the text. -/
def tickInner : Str → Option (Str × Str)
  | [] => none
  | c :: cs =>
    if c = tickC then some ([], cs)
    else if c = '\n' then none
    else (tickInner cs).map (fun p => (c :: p.1, p.2))

/-- Matcher for rule 1. -/
def m1 (_ : Option Char) (l : Str) : Option (Str × Str) :=
  match l with
  | c :: cs =>
    if c = tickC then
      match tickInner cs with
      | some (inner, rest) => some (dquoteC :: inner ++ [dquoteC], rest)
      | none => none
    else none
  | [] => none

/-- Rule 1 of the pipeline. -/
def rule1 (l : Str) : Str := runSub m1 l

/-! ## Rule 2 — `AUTO_?INCREMENT` → `SERIAL` (line 28) -/

/-- Matcher for rule 2: `AUTO`, a greedy optional underscore, `INCREMENT`,
case-insensitive. -/
def m2 (_ : Option Char) (l : Str) : Option (Str × Str) :=
  match dropLitCI "auto".data l with
  | some r1 =>
    (match r1 with
     | c :: r2 =>
       if c = '_' then
         match dropLitCI "increment".data r2 with
         | some rest => some ("SERIAL".data, rest)
         | none => none
       else none
     | [] => none)
    <|>
    (match dropLitCI "increment".data r1 with
     | some rest => some ("SERIAL".data, rest)
     | none => none)
  | none => none

/-- Rule 2 of the pipeline. -/
def rule2 (l : Str) : Str := runSub m2 l

/-! ## Rule 3 — `INT` → `INTEGER` (lines 31-32)

Two successive substitutions: `\bINT\b(?!\w)` → `INTEGER`, then
`\bINT\(\d+\)` → `INTEGER`, both case-insensitive. -/

/-- Matcher for the first substitution of rule 3. -/
def m3a (prev : Option Char) (l : Str) : Option (Str × Str) :=
  if bdry prev then
    match dropLitCI "int".data l with
    | some rest => if notWordNext rest then some ("INTEGER".data, rest) else none
    | none => none
  else none

/-- Matcher for the second substitution of rule 3: `INT` followed directly by
a parenthesised digit run. -/
def m3b (prev : Option Char) (l : Str) : Option (Str × Str) :=
  if bdry prev then
    match dropLitCI "int".data l with
    | some (c :: r1) =>
      if c = '(' then
        match List.span Char.isDigit r1 with
        | (ds, r2) =>
          if ds.isEmpty then none
          else
            match r2 with
            | d :: rest => if d = ')' then some ("INTEGER".data, rest) else none
            | [] => none
      else none
    | _ => none
  else none

/-- Rule 3 of the pipeline: both substitutions, in source order. -/
def rule3 (l : Str) : Str := runSub m3b (runSub m3a l)

/-! ## Rule 4 — sized text types → `TEXT` (line 35) -/

/-- Matcher trying one alternative of `\b(TINY|MEDIUM|LONG)TEXT\b`. -/
def m4try (word : Str) (l : Str) : Option (Str × Str) :=
  match dropLitCI word l with
  | some rest => if notWordNext rest then some ("TEXT".data, rest) else none
  | none => none

/-- Matcher for rule 4, with the source's alternation order. -/
def m4 (prev : Option Char) (l : Str) : Option (Str × Str) :=
  if bdry prev then
    m4try "tinytext".data l <|> m4try "mediumtext".data l <|> m4try "longtext".data l
  else none

/-- Rule 4 of the pipeline. -/
def rule4 (l : Str) : Str := runSub m4 l

/-! ## Rule 5 — `UNSIGNED` → CHECK constraint (lines 38-44)

The source compiles `(\w+\s+)(.*?)(\s+UNSIGNED)` (case-insensitive), walks
its non-overlapping matches over the pre-loop text with `finditer`, and for
each match replaces every occurrence of the matched text in the evolving
text (`str.replace` replaces all occurrences) by
`f"{type} {name} CHECK ({name} >= 0)"` built from the stripped groups. -/

/-- Match of group 3, `(\s+UNSIGNED)`: a maximal non-empty whitespace run
followed by the literal `UNSIGNED`, case-insensitive.  Giving whitespace
back cannot help, because `U` is not whitespace. -/
def g3match (l : Str) : Option Str :=
  match List.span isSpaceChar l with
  | (sp, r) =>
    if sp.isEmpty then none
    else dropLitCI "unsigned".data r

/-- Lazy search for group 2, `(.*?)`, ahead of group 3: try group 3 at the
current point first, then extend group 2 by one non-newline character. -/
def findG2 : Str → Option (Str × Str)
  | [] => none
  | c :: cs =>
    match g3match (c :: cs) with
    | some rest => some ([], rest)
    | none =>
      if c = '\n' then none
      else (findG2 cs).map (fun p => (c :: p.1, p.2))

/-- Greedy descent over the whitespace run of group 1's `\s+`: keep `k`
whitespace characters in group 1 (largest first) and run the lazy group-2
search on the remainder.  Returns group 1, group 2 and the text after the
whole match. -/
def descendS1 (w sp r2 : Str) : Nat → Option (Str × Str × Str)
  | 0 => none
  | k + 1 =>
    match findG2 (sp.drop (k + 1) ++ r2) with
    | some (g2, rest) => some (w ++ sp.take (k + 1), g2, rest)
    | none => descendS1 w sp r2 k

/-- The whole pattern of rule 5 at one position: a maximal word run (a
shorter one would put a word character where `\s+` must start), then the
whitespace descent. -/
def m5at (l : Str) : Option (Str × Str × Str) :=
  match List.span isWordChar l with
  | (w, r1) =>
    if w.isEmpty then none
    else
      match List.span isSpaceChar r1 with
      | (sp, r2) => descendS1 w sp r2 sp.length

/-- One `finditer` match of rule 5: the full matched text and the first two
captured groups. -/
structure M5 where
  g0 : Str
  g1 : Str
  g2 : Str
deriving Repr, DecidableEq

/-- All non-overlapping matches of rule 5's pattern, scanned left to right
over the pre-loop text, as `finditer` yields them. -/
def finditer5 : Nat → Str → List M5
  | 0, _ => []
  | _ + 1, [] => []
  | fuel + 1, c :: cs =>
    match m5at (c :: cs) with
    | some (g1, g2, rest) =>
      { g0 := (c :: cs).take ((c :: cs).length - rest.length), g1 := g1, g2 := g2 }
        :: finditer5 fuel rest
    | none => finditer5 fuel cs

/-- Python `str.strip()` on ASCII text: drop whitespace from both ends. -/
def stripStr (l : Str) : Str :=
  ((l.dropWhile isSpaceChar).reverse.dropWhile isSpaceChar).reverse

/-- Python `str.replace(pat, repl)`: replace every non-overlapping
occurrence, scanning left to right.  The fuel is the text length. -/
def replAll (pat repl : Str) : Nat → Str → Str
  | 0, l => l
  | _ + 1, [] => []
  | fuel + 1, c :: cs =>
    if leadsWith pat (c :: cs) then
      repl ++ replAll pat repl fuel ((c :: cs).drop pat.length)
    else c :: replAll pat repl fuel cs

/-- One iteration of the source's rule-5 loop: build the replacement from
the stripped groups and substitute it for the matched text throughout the
evolving text. -/
def rule5Step (t : Str) (m : M5) : Str :=
  let ct := stripStr m.g1
  let cn := stripStr m.g2
  let repl := ct ++ ' ' :: cn ++ " CHECK (".data ++ cn ++ " >= 0)".data
  replAll m.g0 repl t.length t

/-- The rule-5 loop truncated to its first `n` iterations. -/
def rule5Upto (n : Nat) (l : Str) : Str :=
  ((finditer5 l.length l).take n).foldl rule5Step l

/-- Rule 5 of the pipeline: the full loop over all matches. -/
def rule5 (l : Str) : Str :=
  (finditer5 l.length l).foldl rule5Step l

/-! ## Rule 6 — `TINYINT(1)` → `BOOLEAN` (line 47) -/

/-- Matcher for rule 6. -/
def m6 (prev : Option Char) (l : Str) : Option (Str × Str) :=
  if bdry prev then
    match dropLitCI "tinyint(1)".data l with
    | some rest => some ("BOOLEAN".data, rest)
    | none => none
  else none

/-- Rule 6 of the pipeline. -/
def rule6 (l : Str) : Str := runSub m6 l

/-! ## Rule 7 — `DATETIME` → `TIMESTAMP` (line 50) -/

/-- Matcher for rule 7. -/
def m7 (prev : Option Char) (l : Str) : Option (Str × Str) :=
  if bdry prev then
    match dropLitCI "datetime".data l with
    | some rest => if notWordNext rest then some ("TIMESTAMP".data, rest) else none
    | none => none
  else none

/-- Rule 7 of the pipeline. -/
def rule7 (l : Str) : Str := runSub m7 l

/-! ## Rule 8 — `IFNULL(a,b)` → `COALESCE(a,b)` (line 54)

Pattern `IFNULL\((.*?),(.*?)\)`: both groups are lazy and cannot span a
newline. -/

/-- Lazy search for rule 8's second group: characters up to the first
closing parenthesis, failing on a newline or the end. -/
def findG2r8 : Str → Option (Str × Str)
  | [] => none
  | c :: cs =>
    if c = ')' then some ([], cs)
    else if c = '\n' then none
    else (findG2r8 cs).map (fun p => (c :: p.1, p.2))

/-- Lazy search for rule 8's first group: at each point first try to read
the comma and the second group, then extend the first group by one
non-newline character (a comma may be absorbed when the shorter split
fails). -/
def findArgs8 : Str → Option (Str × Str × Str)
  | [] => none
  | c :: cs =>
    (if c = ',' then (findG2r8 cs).map (fun p => (([] : Str), p.1, p.2)) else none)
    <|>
    (if c = '\n' then none
     else (findArgs8 cs).map (fun p => (c :: p.1, p.2.1, p.2.2)))

/-- Matcher for rule 8. -/
def m8 (_ : Option Char) (l : Str) : Option (Str × Str) :=
  match dropLitCI "ifnull".data l with
  | some (c :: r1) =>
    if c = '(' then
      match findArgs8 r1 with
      | some (g1, g2, rest) =>
        some ("COALESCE(".data ++ g1 ++ ',' :: g2 ++ [')'], rest)
      | none => none
    else none
  | _ => none

/-- Rule 8 of the pipeline. -/
def rule8 (l : Str) : Str := runSub m8 l

/-! ## Rule 9 — `LIMIT x, y` → `LIMIT y OFFSET x` (line 57) -/

/-- Matcher for rule 9: `LIMIT\s+(\d+)\s*,\s*(\d+)`, all runs maximal (the
neighbouring character classes are disjoint, so no backtracking helps). -/
def m9 (_ : Option Char) (l : Str) : Option (Str × Str) :=
  match dropLitCI "limit".data l with
  | some r1 =>
    if (r1.takeWhile isSpaceChar).isEmpty then none
    else
      match List.span Char.isDigit (r1.dropWhile isSpaceChar) with
      | (d1, r2) =>
        if d1.isEmpty then none
        else
          match r2.dropWhile isSpaceChar with
          | c :: r3 =>
            if c = ',' then
              match List.span Char.isDigit (r3.dropWhile isSpaceChar) with
              | (d2, r4) =>
                if d2.isEmpty then none
                else some ("LIMIT ".data ++ d2 ++ " OFFSET ".data ++ d1, r4)
            else none
          | [] => none
  | none => none

/-- Rule 9 of the pipeline. -/
def rule9 (l : Str) : Str := runSub m9 l

/-! ## Rule 10 — `NOW()` → `CURRENT_TIMESTAMP` (line 60) -/

/-- Matcher for rule 10. -/
def m10 (prev : Option Char) (l : Str) : Option (Str × Str) :=
  if bdry prev then
    match dropLitCI "now()".data l with
    | some rest => some ("CURRENT_TIMESTAMP".data, rest)
    | none => none
  else none

/-- Rule 10 of the pipeline. -/
def rule10 (l : Str) : Str := runSub m10 l

/-! ## Rule 11 — `SUBSTRING_INDEX` → `split_part` (lines 63-64)

Pattern `SUBSTRING_INDEX\(([^,]+),\s*([^,]+),\s*(\d+)\)`.  Whitespace is
also a non-comma character, so the greedy `\s*` runs may have to give
characters back to the following `[^,]+`; the descent below reproduces
that. -/

/-- Greedy descent over a whitespace run: try the continuation with `k`
characters consumed, largest `k` first, down to none. -/
def descTry (f : Str → Option (Str × Str × Str)) (sp after : Str) :
    Nat → Option (Str × Str × Str)
  | 0 => f (sp ++ after)
  | k + 1 => (f (sp.drop (k + 1) ++ after)) <|> descTry f sp after k

/-- Continuation of rule 11 after its first comma: the second argument, the
comma, the digit count and the closing parenthesis. -/
def tail11 (t : Str) : Option (Str × Str × Str) :=
  match List.span (fun c => c != ',') t with
  | (g2, r4) =>
    if g2.isEmpty then none
    else
      match r4 with
      | c :: r5 =>
        if c = ',' then
          match List.span Char.isDigit (r5.dropWhile isSpaceChar) with
          | (ds, r6) =>
            if ds.isEmpty then none
            else
              match r6 with
              | d :: rest => if d = ')' then some (g2, ds, rest) else none
              | [] => none
        else none
      | [] => none

/-- Matcher for rule 11. -/
def m11 (_ : Option Char) (l : Str) : Option (Str × Str) :=
  match dropLitCI "substring_index".data l with
  | some (c :: r1) =>
    if c = '(' then
      match List.span (fun d => d != ',') r1 with
      | (g1, r2) =>
        if g1.isEmpty then none
        else
          match r2 with
          | d :: r3 =>
            if d = ',' then
              match descTry tail11 (r3.takeWhile isSpaceChar)
                  (r3.dropWhile isSpaceChar) (r3.takeWhile isSpaceChar).length with
              | some (g2, ds, rest) =>
                some ("split_part(".data ++ g1 ++ ", ".data ++ g2 ++ ", ".data
                  ++ ds ++ [')'], rest)
              | none => none
            else none
          | [] => none
    else none
  | _ => none

/-- Rule 11 of the pipeline. -/
def rule11 (l : Str) : Str := runSub m11 l

/-! ## Rule 12 — `GROUP_CONCAT` → `STRING_AGG` (lines 67-69)

Pattern `GROUP_CONCAT\(([^)]+)(?:\s+SEPARATOR\s+\'([^\']+)\')?\)` with the
computed replacement `f"STRING_AGG({g1}, '{g2 or ','}')"`.  The first group
is greedy, so it is cut from its maximal non-parenthesis run downwards; at
each cut the optional separator group is tried before the bare closing
parenthesis. -/

/-- The optional separator group of rule 12 followed by the closing
parenthesis: `\s+SEPARATOR\s+'([^']+)'` then `\)`. -/
def sepBranch (l : Str) : Option (Str × Str) :=
  if (l.takeWhile isSpaceChar).isEmpty then none
  else
    match dropLitCI "separator".data (l.dropWhile isSpaceChar) with
    | some r1 =>
      if (r1.takeWhile isSpaceChar).isEmpty then none
      else
        match r1.dropWhile isSpaceChar with
        | c :: r2 =>
          if c = squoteC then
            match List.span (fun d => d != squoteC) r2 with
            | (g2, r3) =>
              if g2.isEmpty then none
              else
                match r3 with
                | q :: p :: rest =>
                  if q = squoteC && p = ')' then some (g2, rest) else none
                | _ => none
          else none
        | [] => none
    | none => none

/-- Greedy descent over rule 12's first group: keep `k` characters of the
maximal run (largest first); try the separator branch, then the bare
closing parenthesis. -/
def sepTry (run rest : Str) : Nat → Option (Str × Option Str × Str)
  | 0 => none
  | k + 1 =>
    (match sepBranch (run.drop (k + 1) ++ rest) with
     | some (g2, r) => some (run.take (k + 1), some g2, r)
     | none =>
       match run.drop (k + 1) ++ rest with
       | c :: r => if c = ')' then some (run.take (k + 1), none, r) else none
       | [] => none)
    <|> sepTry run rest k

/-- Matcher for rule 12, building the computed replacement. -/
def m12 (_ : Option Char) (l : Str) : Option (Str × Str) :=
  match dropLitCI "group_concat".data l with
  | some (c :: r1) =>
    if c = '(' then
      match sepTry (r1.takeWhile (fun d => d != ')'))
          (r1.dropWhile (fun d => d != ')'))
          (r1.takeWhile (fun d => d != ')')).length with
      | some (g1, g2, rest) =>
        some ("STRING_AGG(".data ++ g1 ++ ',' :: ' ' :: squoteC
          :: (g2.getD [',']) ++ squoteC :: [')'], rest)
      | none => none
    else none
  | _ => none

/-- Rule 12 of the pipeline. -/
def rule12 (l : Str) : Str := runSub m12 l

/-! ## Rule 13 — boolean literal casing (lines 72-73) -/

/-- Matcher for `\bTRUE\b` → `true`. -/
def m13t (prev : Option Char) (l : Str) : Option (Str × Str) :=
  if bdry prev then
    match dropLitCI "true".data l with
    | some rest => if notWordNext rest then some ("true".data, rest) else none
    | none => none
  else none

/-- Matcher for `\bFALSE\b` → `false`. -/
def m13f (prev : Option Char) (l : Str) : Option (Str × Str) :=
  if bdry prev then
    match dropLitCI "false".data l with
    | some rest => if notWordNext rest then some ("false".data, rest) else none
    | none => none
  else none

/-- Rule 13 of the pipeline: both substitutions, in source order. -/
def rule13 (l : Str) : Str := runSub m13f (runSub m13t l)

/-! ## Rule 14 — ` REGEXP ` → ` ~ ` (line 76)

Pattern `\sREGEXP\s`: the surrounding whitespace characters are part of the
match, so the trailing one is consumed. -/

/-- Matcher for rule 14. -/
def m14 (_ : Option Char) (l : Str) : Option (Str × Str) :=
  match l with
  | c :: cs =>
    if isSpaceChar c then
      match dropLitCI "regexp".data cs with
      | some (d :: rest) =>
        if isSpaceChar d then some (" ~ ".data, rest) else none
      | _ => none
    else none
  | [] => none

/-- Rule 14 of the pipeline. -/
def rule14 (l : Str) : Str := runSub m14 l

/-! ## Rule 15 — engine clauses removed (lines 79-80) -/

/-- Matcher for `ENGINE\s*=\s*\w+` → the empty replacement. -/
def m15a (_ : Option Char) (l : Str) : Option (Str × Str) :=
  match dropLitCI "engine".data l with
  | some r1 =>
    match r1.dropWhile isSpaceChar with
    | c :: r2 =>
      if c = '=' then
        match List.span isWordChar (r2.dropWhile isSpaceChar) with
        | (w, r3) => if w.isEmpty then none else some ([], r3)
      else none
    | [] => none
  | none => none

/-- Matcher for `DEFAULT CHARSET\s*=\s*\w+` → the empty replacement; the
space inside the literal matches exactly one space character. -/
def m15b (_ : Option Char) (l : Str) : Option (Str × Str) :=
  match dropLitCI "default charset".data l with
  | some r1 =>
    match r1.dropWhile isSpaceChar with
    | c :: r2 =>
      if c = '=' then
        match List.span isWordChar (r2.dropWhile isSpaceChar) with
        | (w, r3) => if w.isEmpty then none else some ([], r3)
      else none
    | [] => none
  | none => none

/-- Rule 15 of the pipeline: both substitutions, in source order. -/
def rule15 (l : Str) : Str := runSub m15b (runSub m15a l)

/-! ## Rule 16 — comment-marker spacing (line 83) -/

/-- Matcher for `--\s` → `-- ` (case sensitivity is irrelevant here). -/
def m16 (_ : Option Char) (l : Str) : Option (Str × Str) :=
  match l with
  | a :: b :: c :: rest =>
    if a = '-' && b = '-' && isSpaceChar c then some ("-- ".data, rest) else none
  | _ => none

/-- Rule 16 of the pipeline. -/
def rule16 (l : Str) : Str := runSub m16 l

/-! ## The pipeline -/

/-- The sixteen rules, in source order. -/
def pipelineSteps : List (Str → Str) :=
  [rule1, rule2, rule3, rule4, rule5, rule6, rule7, rule8, rule9, rule10,
   rule11, rule12, rule13, rule14, rule15, rule16]

/-- The rewrite pipeline on character lists: strict sequential composition
of the sixteen rules, exactly as the source threads `psql_queries`. -/
def rewriteL (l : Str) : Str :=
  rule16 (rule15 (rule14 (rule13 (rule12 (rule11 (rule10 (rule9 (rule8
    (rule7 (rule6 (rule5 (rule4 (rule3 (rule2 (rule1 l)))))))))))))))

/-- The rewrite pipeline on strings. -/
def rewrite (s : String) : String := String.mk (rewriteL s.data)

/-- The pipeline with rules 1 and 3 exchanged in position (order 3, 2, 1,
4, ..., 16), the variant named by the specification's order-sensitivity
test. -/
def rewriteSwapL (l : Str) : Str :=
  rule16 (rule15 (rule14 (rule13 (rule12 (rule11 (rule10 (rule9 (rule8
    (rule7 (rule6 (rule5 (rule4 (rule1 (rule2 (rule3 l)))))))))))))))

/-- The swapped pipeline on strings. -/
def rewriteSwap (s : String) : String := String.mk (rewriteSwapL s.data)

/-- Driver model for the purity claim: an abstract file system maps paths
to contents; the conversion reads one path and rewrites what it finds,
exactly the data flow of `convert_mysql_to_postgresql`. -/
def convertText (fs : String → Option String) (p : String) : Option String :=
  (fs p).map rewrite

/-- Abstract file system used to witness the purity theorem: one file. -/
def fsOne : String → Option String :=
  fun q => if q = "a.sql" then some "LIMIT 10, 5" else none

/-- A second abstract file system, agreeing with `fsOne` only on the
content stored under a different path. -/
def fsTwo : String → Option String :=
  fun q => if q = "b.sql" then some "LIMIT 10, 5" else some "unrelated"

/-- Canonical run of a scanner from a given previous character: the fuel is
the text length, as in `runSub`. -/
def substC (m : Option Char → Str → Option (Str × Str)) (p : Option Char) (l : Str) : Str :=
  subst m l.length p l

/-- Previous character entering the continuation after a copied chunk. -/
def lastPrev (p : Option Char) (a : Str) : Option Char :=
  match a.getLast? with
  | some c => some c
  | none => p

/-- Does the text reach a newline or its end before any backtick?  This is
exactly the situation in which `tickInner` fails. -/
def noCloseTick : Str → Bool
  | [] => true
  | c :: cs => if c = tickC then false else if c = '\n' then true else noCloseTick cs

/-- Rule 1's scan from any previous character (the matcher ignores it). -/
def r1C (l : Str) : Str := substC m1 none l

/-! ## Scanner infrastructure lemmas -/

theorem subst_nil (m : Option Char → Str → Option (Str × Str)) (f : Nat) (p : Option Char) :
    subst m f p [] = [] := by
  cases f <;> rfl

theorem subst_cons (m : Option Char → Str → Option (Str × Str)) (f : Nat) (p : Option Char)
    (c : Char) (cs : Str) :
    subst m (f + 1) p (c :: cs) =
      match m p (c :: cs) with
      | some (repl, rest) =>
        repl ++ subst m f (((c :: cs).take ((c :: cs).length - rest.length)).getLast?) rest
      | none => c :: subst m f (some c) cs := rfl

/-- A matcher is well behaved when every match consumes at least one
character and leaves a suffix of its input. -/
structure MOk (m : Option Char → Str → Option (Str × Str)) : Prop where
  consume : ∀ p l r s, m p l = some (r, s) → s.length < l.length
  tail : ∀ p l r s, m p l = some (r, s) → s <:+ l

theorem subst_fuel (m : Option Char → Str → Option (Str × Str)) (hm : MOk m) :
    ∀ (n : Nat) (l : Str), l.length ≤ n → ∀ (f : Nat) (p : Option Char), l.length ≤ f →
      subst m f p l = substC m p l := by
  intro n
  induction n with
  | zero =>
    intro l hl f p _
    have hnil : l = [] := List.length_eq_zero.mp (Nat.le_zero.mp hl)
    subst hnil
    rw [subst_nil, substC, subst_nil]
  | succ n ih =>
    intro l hl f p hf
    cases l with
    | nil => rw [subst_nil, substC, subst_nil]
    | cons c cs =>
      cases f with
      | zero => simp at hf
      | succ f =>
        rw [substC, show (c :: cs).length = cs.length + 1 from rfl, subst_cons, subst_cons]
        cases hmc : m p (c :: cs) with
        | none =>
          simp only
          have h1 := ih cs (by simp at hl; omega) f (some c) (by simp at hf; omega)
          have h2 := ih cs (by simp at hl; omega) cs.length (some c) (Nat.le_refl _)
          rw [h1, h2]
        | some rs =>
          obtain ⟨r, s⟩ := rs
          simp only
          have hs : s.length < cs.length + 1 := by
            have := hm.consume p (c :: cs) r s hmc
            simpa using this
          have h1 := ih s (by simp at hl; omega)
            f (((c :: cs).take ((c :: cs).length - s.length)).getLast?) (by simp at hf; omega)
          have h2 := ih s (by simp at hl; omega)
            cs.length (((c :: cs).take ((c :: cs).length - s.length)).getLast?) (by omega)
          rw [h1, h2]

theorem substC_nil (m : Option Char → Str → Option (Str × Str)) (p : Option Char) :
    substC m p [] = [] := by
  rw [substC, subst_nil]

theorem substC_cons_none (m : Option Char → Str → Option (Str × Str)) {p : Option Char}
    {c : Char} {cs : Str} (h : m p (c :: cs) = none) :
    substC m p (c :: cs) = c :: substC m (some c) cs := by
  rw [substC, show (c :: cs).length = cs.length + 1 from rfl, subst_cons, h]
  rfl

theorem substC_cons_some (m : Option Char → Str → Option (Str × Str)) (hm : MOk m)
    {p : Option Char} {c : Char} {cs r s : Str} (h : m p (c :: cs) = some (r, s)) :
    substC m p (c :: cs)
      = r ++ substC m (((c :: cs).take ((c :: cs).length - s.length)).getLast?) s := by
  rw [substC, show (c :: cs).length = cs.length + 1 from rfl, subst_cons, h]
  have hs : s.length < cs.length + 1 := by
    have := hm.consume p (c :: cs) r s h
    simpa using this
  dsimp only
  rw [subst_fuel m hm s.length s (Nat.le_refl _) cs.length _ (by omega)]
  rfl

theorem runSub_eq_substC (m : Option Char → Str → Option (Str × Str)) (l : Str) :
    runSub m l = substC m none l := rfl

/-! ## Character-class lemmas -/

theorem isWordChar_of_toLower {c : Char} (h : isWordChar c.toLower = true) :
    isWordChar c = true := by
  unfold Char.toLower at h
  simp only at h
  by_cases hr : c.toNat ≥ 65 ∧ c.toNat ≤ 90
  · have hu : c.isUpper = true := by
      unfold Char.isUpper
      obtain ⟨h1, h2⟩ := hr
      have e1 : (65 : UInt32) ≤ c.val := by
        rw [UInt32.le_def, BitVec.le_def]
        simpa [Char.toNat] using h1
      have e2 : c.val ≤ (90 : UInt32) := by
        rw [UInt32.le_def, BitVec.le_def]
        simpa [Char.toNat] using h2
      simp [e1, e2]
    simp [isWordChar, Char.isAlphanum, Char.isAlpha, hu]
  · rw [if_neg hr] at h
    exact h

theorem isWordChar_of_toLower_eq {c p : Char} (h : c.toLower = p)
    (hp : isWordChar p = true) : isWordChar c = true :=
  isWordChar_of_toLower (by rw [h]; exact hp)

theorem toLower_ne_of_not_word {d p : Char} (hd : isWordChar d = false)
    (hp : isWordChar p = true) : d.toLower ≠ p := by
  intro h
  rw [isWordChar_of_toLower_eq h hp] at hd
  cases hd

/-! ## Lemmas about case-insensitive literal reads -/

theorem dropLitCI_nil_pat (l : Str) : dropLitCI [] l = some l := rfl

theorem dropLitCI_cons (p : Char) (ps : Str) (c : Char) (cs : Str) :
    dropLitCI (p :: ps) (c :: cs)
      = if c.toLower = p then dropLitCI ps cs else none := rfl

/-- Reading a literal made of word characters past a non-word delimiter:
the read behaves on `u ++ d :: v` exactly as on `u`, with the rest
extended. -/
theorem dropLitCI_append {d : Char} (hd : isWordChar d = false) :
    ∀ (pat : Str), (∀ p ∈ pat, isWordChar p = true) →
      ∀ (u v : Str),
        dropLitCI pat (u ++ d :: v) = (dropLitCI pat u).map (fun r => r ++ d :: v) := by
  intro pat hpat
  induction pat with
  | nil => intro u v; rfl
  | cons p ps ih =>
    intro u v
    cases u with
    | nil =>
      rw [List.nil_append, dropLitCI_cons]
      rw [if_neg (toLower_ne_of_not_word hd (hpat p (by simp)))]
      rfl
    | cons c cs =>
      rw [List.cons_append, dropLitCI_cons, dropLitCI_cons]
      by_cases hc : c.toLower = p
      · rw [if_pos hc, if_pos hc]
        exact ih (fun q hq => hpat q (by simp [hq])) cs v
      · rw [if_neg hc, if_neg hc]
        rfl

/-- A successful literal read decomposes the text into the consumed prefix
and the rest; the consumed characters lower to the pattern, position by
position. -/
theorem dropLitCI_decomp :
    ∀ (pat l r : Str), dropLitCI pat l = some r →
      ∃ M, l = M ++ r ∧ M.length = pat.length ∧
        List.Forall₂ (fun c p => c.toLower = p) M pat := by
  intro pat
  induction pat with
  | nil =>
    intro l r h
    have hlr : l = r := by simpa [dropLitCI] using h
    exact ⟨[], by simp [hlr], rfl, List.Forall₂.nil⟩
  | cons p ps ih =>
    intro l r h
    cases l with
    | nil => cases h
    | cons c cs =>
      rw [dropLitCI_cons] at h
      by_cases hc : c.toLower = p
      · rw [if_pos hc] at h
        obtain ⟨M, hM1, hM2, hM3⟩ := ih cs r h
        exact ⟨c :: M, by simp [hM1], by simp [hM2], List.Forall₂.cons hc hM3⟩
      · rw [if_neg hc] at h; cases h

/-- The consumed prefix of a successful literal read determines the read on
any other continuation. -/
theorem dropLitCI_transport :
    ∀ (pat M : Str), List.Forall₂ (fun c p => c.toLower = p) M pat →
      ∀ (X : Str), dropLitCI pat (M ++ X) = some X := by
  intro pat M h
  induction h with
  | nil => intro X; rfl
  | cons hc _ ih =>
    intro X
    rw [List.cons_append, dropLitCI_cons, if_pos hc]
    exact ih X

theorem word_of_forall₂ {M pat : Str} (h : List.Forall₂ (fun c p => c.toLower = p) M pat)
    (hpat : ∀ p ∈ pat, isWordChar p = true) : ∀ c ∈ M, isWordChar c = true := by
  induction h with
  | nil => intro c hc; cases hc
  | cons hc _ ih =>
    intro x hx
    rcases List.mem_cons.mp hx with h1 | h2
    · subst h1
      exact isWordChar_of_toLower_eq hc (hpat _ (by simp))
    · exact ih (fun q hq => hpat q (by simp [hq])) x h2

/-! ## Generic scanner lemmas -/

theorem lastPrev_nil (p : Option Char) : lastPrev p [] = p := rfl

theorem lastPrev_cons (p : Option Char) (a : Char) (A : Str) :
    lastPrev p (a :: A) = lastPrev (some a) A := by
  cases A with
  | nil => rfl
  | cons b B =>
    have hsome : (b :: B).getLast?.isSome := by
      rw [List.getLast?_isSome]; simp
    obtain ⟨x, hx⟩ := Option.isSome_iff_exists.mp hsome
    rw [lastPrev, lastPrev, List.getLast?_cons_cons, hx]

/-- A scanner copies any chunk on which its matcher fails at every offset. -/
theorem substC_copy (m : Option Char → Str → Option (Str × Str)) (z : Str) :
    ∀ (A : Str) (p : Option Char),
      (∀ (q : Option Char) (i : Nat), i < A.length → m q (A.drop i ++ z) = none) →
      substC m p (A ++ z) = A ++ substC m (lastPrev p A) z := by
  intro A
  induction A with
  | nil => intro p _; rfl
  | cons a A ih =>
    intro p hfail
    have h0 : m p (a :: (A ++ z)) = none := by
      have := hfail p 0 (by simp)
      simpa using this
    rw [List.cons_append, substC_cons_none m h0, lastPrev_cons]
    rw [ih (some a) (fun q i hi => by
      have := hfail q (i + 1) (by simpa using Nat.succ_lt_succ hi)
      simpa using this)]
    rfl

/-- The scan result depends on the incoming previous character only through
the matcher's own dependence on it. -/
theorem substC_prev (m : Option Char → Str → Option (Str × Str)) (hm : MOk m)
    (hcl : ∀ p q l, bdry p = bdry q → m p l = m q l)
    {p q : Option Char} (l : Str) (h : bdry p = bdry q) :
    substC m p l = substC m q l := by
  cases l with
  | nil => rw [substC_nil, substC_nil]
  | cons c cs =>
    have heq := hcl p q (c :: cs) h
    cases hq : m q (c :: cs) with
    | none =>
      rw [substC_cons_none m (heq.trans hq), substC_cons_none m hq]
    | some rs =>
      obtain ⟨r, s⟩ := rs
      rw [substC_cons_some m hm (heq.trans hq), substC_cons_some m hm hq]

/-- A scanner whose matcher ignores the previous character entirely. -/
theorem substC_prev_any (m : Option Char → Str → Option (Str × Str)) (hm : MOk m)
    (hcl : ∀ p q l, m p l = m q l) {p q : Option Char} (l : Str) :
    substC m p l = substC m q l := by
  cases l with
  | nil => rw [substC_nil, substC_nil]
  | cons c cs =>
    have heq := hcl p q (c :: cs)
    cases hq : m q (c :: cs) with
    | none =>
      rw [substC_cons_none m (heq.trans hq), substC_cons_none m hq]
    | some rs =>
      obtain ⟨r, s⟩ := rs
      rw [substC_cons_some m hm (heq.trans hq), substC_cons_some m hm hq]

/-- A character absent from the text and from every replacement is absent
from the scan result. -/
theorem substC_not_mem (m : Option Char → Str → Option (Str × Str)) (hm : MOk m)
    (x : Char) (hr : ∀ p l r s, m p l = some (r, s) → x ∉ r) :
    ∀ (n : Nat) (l : Str), l.length ≤ n → ∀ (p : Option Char),
      x ∉ l → x ∉ substC m p l := by
  intro n
  induction n with
  | zero =>
    intro l hl p hx
    have : l = [] := List.length_eq_zero.mp (Nat.le_zero.mp hl)
    subst this
    rw [substC_nil]
    exact hx
  | succ n ih =>
    intro l hl p hx
    cases l with
    | nil => rw [substC_nil]; exact hx
    | cons c cs =>
      cases hmc : m p (c :: cs) with
      | none =>
        rw [substC_cons_none m hmc]
        intro hmem
        rcases List.mem_cons.mp hmem with h1 | h2
        · exact hx (by simp [h1])
        · exact ih cs (by simp at hl; omega) (some c) (fun hc => hx (by simp [hc])) h2
      | some rs =>
        obtain ⟨r, s⟩ := rs
        rw [substC_cons_some m hm hmc]
        intro hmem
        rcases List.mem_append.mp hmem with h1 | h2
        · exact hr p (c :: cs) r s hmc h1
        · have hs : s.length ≤ n := by
            have := hm.consume p (c :: cs) r s hmc
            simp at hl this; omega
          have hxs : x ∉ s := fun hc => hx ((hm.tail p (c :: cs) r s hmc).subset hc)
          exact ih s hs _ hxs h2

/-- A scanner splits at a delimiter that can neither start nor appear
inside any match. -/
theorem substC_split (m : Option Char → Str → Option (Str × Str)) (hm : MOk m)
    {d : Char} (v : Str) (hnil : ∀ p, m p [] = none)
    (href : ∀ (p : Option Char) (u : Str),
      m p (u ++ d :: v) = (m p u).map (fun rs => (rs.1, rs.2 ++ d :: v))) :
    ∀ (n : Nat) (u : Str), u.length ≤ n → ∀ (p : Option Char),
      substC m p (u ++ d :: v) = substC m p u ++ d :: substC m (some d) v := by
  intro n
  induction n with
  | zero =>
    intro u hu p
    have : u = [] := List.length_eq_zero.mp (Nat.le_zero.mp hu)
    subst this
    have h0 : m p (d :: v) = none := by
      have := href p []
      rw [hnil p] at this
      simpa using this
    rw [List.nil_append, substC_cons_none m h0, substC_nil, List.nil_append]
  | succ n ih =>
    intro u hu p
    cases u with
    | nil =>
      have h0 : m p (d :: v) = none := by
        have := href p []
        rw [hnil p] at this
        simpa using this
      rw [List.nil_append, substC_cons_none m h0, substC_nil, List.nil_append]
    | cons c cs =>
      have h := href p (c :: cs)
      cases hm2 : m p (c :: cs) with
      | none =>
        rw [hm2] at h
        simp only [Option.map_none'] at h
        have h' : m p (c :: (cs ++ d :: v)) = none := h
        show substC m p (c :: (cs ++ d :: v)) = substC m p (c :: cs) ++ d :: substC m (some d) v
        rw [substC_cons_none m h', substC_cons_none m hm2]
        rw [ih cs (by simp at hu; omega) (some c)]
        rfl
      | some rs =>
        obtain ⟨r, s⟩ := rs
        rw [hm2] at h
        simp only [Option.map_some'] at h
        have hcons : s.length < (c :: cs).length := hm.consume p (c :: cs) r s hm2
        have h' : m p (c :: (cs ++ d :: v)) = some (r, s ++ d :: v) := h
        show substC m p (c :: (cs ++ d :: v)) = substC m p (c :: cs) ++ d :: substC m (some d) v
        rw [substC_cons_some m hm h', substC_cons_some m hm hm2]
        have e1 : (c :: (cs ++ d :: v)).length - (s ++ d :: v).length
            = (c :: cs).length - s.length := by
          simp; omega
        have e2 : (c :: (cs ++ d :: v)).take ((c :: cs).length - s.length)
            = (c :: cs).take ((c :: cs).length - s.length) := by
          rw [show c :: (cs ++ d :: v) = (c :: cs) ++ (d :: v) from rfl]
          exact List.take_append_of_le_length (by omega)
        rw [e1, e2]
        rw [ih s (by simp at hu hcons; omega) _]
        simp

/-! ## Rule 1 scan structure -/

theorem m1_nil (p : Option Char) : m1 p [] = none := rfl

theorem m1_prev_irrel (p q : Option Char) (l : Str) : m1 p l = m1 q l := rfl

theorem m1_none_of_ne {c : Char} (hc : c ≠ tickC) (cs : Str) (p : Option Char) :
    m1 p (c :: cs) = none := by
  simp only [m1]
  rw [if_neg hc]

theorem tickInner_decomp :
    ∀ (cs inner rest : Str), tickInner cs = some (inner, rest) →
      cs = inner ++ tickC :: rest ∧ tickC ∉ inner ∧ '\n' ∉ inner := by
  intro cs
  induction cs with
  | nil => intro inner rest h; cases h
  | cons c cs ih =>
    intro inner rest h
    unfold tickInner at h
    by_cases hc : c = tickC
    · rw [if_pos hc] at h
      obtain ⟨h1, h2⟩ := Prod.mk.injEq .. ▸ Option.some.inj h
      subst hc; subst h1; subst h2
      simp
    · rw [if_neg hc] at h
      by_cases hn : c = '\n'
      · rw [if_pos hn] at h; cases h
      · rw [if_neg hn] at h
        obtain ⟨⟨i', r'⟩, hti, heq⟩ := Option.map_eq_some'.mp h
        obtain ⟨he1, he2, he3⟩ := ih i' r' hti
        simp only [Prod.mk.injEq] at heq
        obtain ⟨hq1, hq2⟩ := heq
        subst hq2
        refine ⟨?_, ?_, ?_⟩
        · rw [← hq1]; simp [he1]
        · rw [← hq1]
          intro hmem
          rcases List.mem_cons.mp hmem with h1 | h2
          · exact hc h1.symm
          · exact he2 h2
        · rw [← hq1]
          intro hmem
          rcases List.mem_cons.mp hmem with h1 | h2
          · exact hn h1.symm
          · exact he3 h2

theorem tickInner_of_clean :
    ∀ (a : Str), tickC ∉ a → '\n' ∉ a →
      ∀ (z : Str), tickInner (a ++ tickC :: z) = some (a, z) := by
  intro a
  induction a with
  | nil =>
    intro _ _ z
    rw [List.nil_append]
    unfold tickInner
    rw [if_pos rfl]
  | cons c cs ih =>
    intro h1 h2 z
    rw [List.cons_append]
    unfold tickInner
    rw [if_neg (fun hc => h1 (by simp [hc])), if_neg (fun hn => h2 (by simp [hn]))]
    rw [ih (fun hc => h1 (by simp [hc])) (fun hn => h2 (by simp [hn])) z]
    rfl

theorem tickInner_none_iff :
    ∀ (x : Str), tickInner x = none ↔ noCloseTick x = true := by
  intro x
  induction x with
  | nil => simp [tickInner, noCloseTick]
  | cons c cs ih =>
    unfold tickInner noCloseTick
    by_cases hc : c = tickC
    · rw [if_pos hc, if_pos hc]; simp
    · rw [if_neg hc, if_neg hc]
      by_cases hn : c = '\n'
      · rw [if_pos hn, if_pos hn]; simp
      · rw [if_neg hn, if_neg hn]
        rw [Option.map_eq_none']
        exact ih

theorem m1_inv {p : Option Char} {l r s : Str} (h : m1 p l = some (r, s)) :
    ∃ inner, l = tickC :: inner ++ tickC :: s ∧ r = dquoteC :: inner ++ [dquoteC]
      ∧ tickC ∉ inner ∧ '\n' ∉ inner := by
  cases l with
  | nil => cases h
  | cons c cs =>
    simp only [m1] at h
    by_cases hc : c = tickC
    · rw [if_pos hc] at h
      cases ht : tickInner cs with
      | none => rw [ht] at h; cases h
      | some ir =>
        obtain ⟨inner, rest⟩ := ir
        rw [ht] at h
        have h' : some ((dquoteC :: inner ++ [dquoteC] : Str), rest) = some (r, s) := h
        obtain ⟨h1, h2⟩ := Prod.mk.injEq .. ▸ Option.some.inj h'
        obtain ⟨hd, hni1, hni2⟩ := tickInner_decomp cs inner rest ht
        subst h2
        refine ⟨inner, ?_, h1.symm, hni1, hni2⟩
        rw [hc, hd]
        rfl
    · rw [if_neg hc] at h; cases h

theorem m1_mok : MOk m1 := by
  constructor
  · intro p l r s h
    obtain ⟨inner, hl, _, _, _⟩ := m1_inv h
    rw [hl]
    simp
    omega
  · intro p l r s h
    obtain ⟨inner, hl, _, _, _⟩ := m1_inv h
    rw [hl]
    exact ⟨tickC :: inner ++ [tickC], by simp⟩

theorem r1C_nil : r1C [] = [] := by
  rw [r1C, substC_nil]

theorem r1C_eq_substC (p : Option Char) (l : Str) : substC m1 p l = r1C l :=
  substC_prev_any m1 m1_mok m1_prev_irrel l

theorem r1C_cons_ne {c : Char} (hc : c ≠ tickC) (cs : Str) :
    r1C (c :: cs) = c :: r1C cs := by
  rw [r1C, substC_cons_none m1 (m1_none_of_ne hc cs none), r1C_eq_substC]

theorem r1C_cons_tick_none {cs : Str} (h : noCloseTick cs = true) :
    r1C (tickC :: cs) = tickC :: r1C cs := by
  have hm : m1 none (tickC :: cs) = none := by
    simp only [m1, if_true]
    rw [(tickInner_none_iff cs).mpr h]
  rw [r1C, substC_cons_none m1 hm, r1C_eq_substC]

theorem r1C_cons_tick_some {inner : Str} (h1 : tickC ∉ inner) (h2 : '\n' ∉ inner)
    (z : Str) :
    r1C (tickC :: (inner ++ tickC :: z)) = dquoteC :: (inner ++ dquoteC :: r1C z) := by
  have hm : m1 none (tickC :: (inner ++ tickC :: z))
      = some (dquoteC :: inner ++ [dquoteC], z) := by
    simp only [m1, if_true]
    rw [tickInner_of_clean inner h1 h2 z]
  rw [r1C, substC_cons_some m1 m1_mok hm, r1C_eq_substC]
  simp

theorem r1C_copy {A : Str} (hA : tickC ∉ A) (z : Str) :
    r1C (A ++ z) = A ++ r1C z := by
  rw [r1C, substC_copy m1 z A none ?_, r1C_eq_substC]
  intro q i hi
  cases hd : A.drop i with
  | nil =>
    exfalso
    have hlen := congrArg List.length hd
    simp at hlen
    omega
  | cons c rest =>
    have hc : c ∈ A := List.drop_subset i A (by rw [hd]; simp)
    rw [List.cons_append]
    exact m1_none_of_ne (fun he => hA (he ▸ hc)) _ q

theorem noCloseTick_cons_other {c : Char} (h1 : c ≠ tickC) (h2 : c ≠ '\n') (cs : Str) :
    noCloseTick (c :: cs) = noCloseTick cs := by
  simp only [noCloseTick]
  rw [if_neg h1, if_neg h2]

theorem noCloseTick_append {A : Str} (hA : ∀ c ∈ A, c ≠ tickC ∧ c ≠ '\n') (z : Str) :
    noCloseTick (A ++ z) = noCloseTick z := by
  induction A with
  | nil => rw [List.nil_append]
  | cons c cs ih =>
    rw [List.cons_append, noCloseTick_cons_other (hA c (by simp)).1 (hA c (by simp)).2]
    exact ih (fun x hx => hA x (by simp [hx]))

theorem notWordNext_r1C (l : Str) : notWordNext (r1C l) = notWordNext l := by
  cases l with
  | nil => rw [r1C_nil]
  | cons c cs =>
    by_cases hc : c = tickC
    · subst hc
      by_cases hnc : noCloseTick cs = true
      · rw [r1C_cons_tick_none hnc]
        rfl
      · cases ht : tickInner cs with
        | none => exact absurd ((tickInner_none_iff cs).mp ht) hnc
        | some ir =>
          obtain ⟨inner, rest⟩ := ir
          obtain ⟨hd, hi1, hi2⟩ := tickInner_decomp cs inner rest ht
          rw [hd, r1C_cons_tick_some hi1 hi2 rest]
          show (!isWordChar dquoteC) = (!isWordChar tickC)
          decide
    · rw [r1C_cons_ne hc cs]
      rfl

/-- A scanner whose matches and replacements avoid backticks and newlines
preserves `noCloseTick`. -/
theorem noCloseTick_substC (m : Option Char → Str → Option (Str × Str)) (hm : MOk m)
    (hrep : ∀ p l r s, m p l = some (r, s) → ∀ c ∈ r, c ≠ tickC ∧ c ≠ '\n')
    (hmatch : ∀ p l r s, m p l = some (r, s) →
      ∃ M, l = M ++ s ∧ ∀ c ∈ M, c ≠ tickC ∧ c ≠ '\n') :
    ∀ (n : Nat) (l : Str), l.length ≤ n → ∀ (p : Option Char),
      noCloseTick l = true → noCloseTick (substC m p l) = true := by
  intro n
  induction n with
  | zero =>
    intro l hl p h
    have : l = [] := List.length_eq_zero.mp (Nat.le_zero.mp hl)
    subst this
    rw [substC_nil]
    exact h
  | succ n ih =>
    intro l hl p h
    cases l with
    | nil => rw [substC_nil]; exact h
    | cons c cs =>
      cases hmc : m p (c :: cs) with
      | none =>
        rw [substC_cons_none m hmc]
        unfold noCloseTick at h ⊢
        by_cases hc : c = tickC
        · rw [if_pos hc] at h; cases h
        · rw [if_neg hc] at h ⊢
          by_cases hn : c = '\n'
          · rw [if_pos hn]
          · rw [if_neg hn] at h ⊢
            exact ih cs (by simp at hl; omega) (some c) h
      | some rs =>
        obtain ⟨r, s⟩ := rs
        rw [substC_cons_some m hm hmc]
        rw [noCloseTick_append (hrep p (c :: cs) r s hmc)]
        obtain ⟨M, hM1, hM2⟩ := hmatch p (c :: cs) r s hmc
        rw [hM1, noCloseTick_append hM2] at h
        have hs : s.length ≤ n := by
          have := hm.consume p (c :: cs) r s hmc
          simp at hl this; omega
        exact ih s hs _ h

/-! ## Facts about the INT matcher (rule 3, first substitution) -/

theorem m3a_eval (p : Option Char) (l : Str) :
    m3a p l = if bdry p then
      (match dropLitCI "int".data l with
       | some rest => if notWordNext rest then some ("INTEGER".data, rest) else none
       | none => none)
      else none := rfl

theorem m3a_nil (p : Option Char) : m3a p [] = none := by
  rw [m3a_eval]
  split <;> rfl

theorem m3a_classinv (p q : Option Char) (l : Str) (h : bdry p = bdry q) :
    m3a p l = m3a q l := by
  rw [m3a_eval, m3a_eval, h]

theorem m3a_none_of_word_prev {w : Char} (hw : isWordChar w = true) (l : Str) :
    m3a (some w) l = none := by
  rw [m3a_eval, if_neg]
  show ¬((!isWordChar w) = true)
  rw [hw]
  simp

theorem m3a_none_of_head {c : Char} (hc : c.toLower ≠ 'i') (t : Str) (q : Option Char) :
    m3a q (c :: t) = none := by
  rw [m3a_eval]
  split
  · rw [show ("int".data : Str) = 'i' :: 'n' :: 't' :: [] from rfl, dropLitCI_cons,
      if_neg hc]
  · rfl

theorem dropLitCI_int_inv {l rest : Str} (h : dropLitCI "int".data l = some rest) :
    ∃ c0 c1 c2, l = c0 :: c1 :: c2 :: rest ∧ c0.toLower = 'i' ∧ c1.toLower = 'n'
      ∧ c2.toLower = 't' := by
  rw [show ("int".data : Str) = 'i' :: 'n' :: 't' :: [] from rfl] at h
  cases l with
  | nil => cases h
  | cons c0 l1 =>
    rw [dropLitCI_cons] at h
    by_cases h0 : c0.toLower = 'i'
    · rw [if_pos h0] at h
      cases l1 with
      | nil => cases h
      | cons c1 l2 =>
        rw [dropLitCI_cons] at h
        by_cases h1 : c1.toLower = 'n'
        · rw [if_pos h1] at h
          cases l2 with
          | nil => cases h
          | cons c2 l3 =>
            rw [dropLitCI_cons] at h
            by_cases h2 : c2.toLower = 't'
            · rw [if_pos h2] at h
              have h3 : l3 = rest := by simpa [dropLitCI] using h
              exact ⟨c0, c1, c2, by rw [h3], h0, h1, h2⟩
            · rw [if_neg h2] at h; cases h
        · rw [if_neg h1] at h; cases h
    · rw [if_neg h0] at h; cases h

/-- Inversion of a successful INT match: three characters lowering to
`int`, a true boundary in front, and a non-word continuation. -/
theorem m3a_inv {p : Option Char} {l r s : Str} (h : m3a p l = some (r, s)) :
    r = "INTEGER".data ∧ bdry p = true ∧
      ∃ c0 c1 c2, l = c0 :: c1 :: c2 :: s ∧ c0.toLower = 'i' ∧ c1.toLower = 'n'
        ∧ c2.toLower = 't' ∧ notWordNext s = true := by
  rw [m3a_eval] at h
  by_cases hb : bdry p = true
  · rw [if_pos hb] at h
    generalize hd : dropLitCI "int".data l = dres at h
    cases dres with
    | none => cases h
    | some rest =>
      dsimp only at h
      by_cases hw : notWordNext rest = true
      · rw [if_pos hw] at h
        obtain ⟨h1, h2⟩ := Prod.mk.injEq .. ▸ Option.some.inj h
        subst h2
        obtain ⟨c0, c1, c2, hl, h0, h1', h2'⟩ := dropLitCI_int_inv hd
        exact ⟨h1.symm, hb, c0, c1, c2, hl, h0, h1', h2', hw⟩
      · rw [if_neg hw] at h; cases h
  · rw [if_neg hb] at h; cases h

theorem m3a_mok : MOk m3a := by
  constructor
  · intro p l r s h
    obtain ⟨_, _, c0, c1, c2, hl, _, _, _, _⟩ := m3a_inv h
    rw [hl]
    simp
    omega
  · intro p l r s h
    obtain ⟨_, _, c0, c1, c2, hl, _, _, _, _⟩ := m3a_inv h
    rw [hl]
    exact ⟨[c0, c1, c2], rfl⟩

/-- An INT match is determined by its three consumed characters and the
word-class of the head of the continuation. -/
theorem m3a_transport {p : Option Char} {c0 c1 c2 : Char}
    (hb : bdry p = true) (h0 : c0.toLower = 'i') (h1 : c1.toLower = 'n')
    (h2 : c2.toLower = 't') {X : Str} (hX : notWordNext X = true) :
    m3a p (c0 :: c1 :: c2 :: X) = some ("INTEGER".data, X) := by
  rw [m3a_eval, if_pos hb]
  rw [show ("int".data : Str) = 'i' :: 'n' :: 't' :: [] from rfl]
  rw [dropLitCI_cons, if_pos h0, dropLitCI_cons, if_pos h1, dropLitCI_cons, if_pos h2]
  rw [dropLitCI_nil_pat]
  show (if notWordNext X then _ else none) = _
  rw [if_pos hX]

theorem word_ne_tick {c : Char} (h : isWordChar c = true) : c ≠ tickC := by
  rintro rfl
  revert h
  decide

theorem word_ne_nl {c : Char} (h : isWordChar c = true) : c ≠ '\n' := by
  rintro rfl
  revert h
  decide

/-! ## Facts about the AUTO_INCREMENT matcher (rule 2) -/

theorem m2_prev_irrel (p q : Option Char) (l : Str) : m2 p l = m2 q l := rfl

theorem m2_eval (p : Option Char) (l : Str) :
    m2 p l =
      (match dropLitCI "auto".data l with
       | some r1 =>
         (match r1 with
          | c :: r2 =>
            if c = '_' then
              match dropLitCI "increment".data r2 with
              | some rest => some ("SERIAL".data, rest)
              | none => none
            else none
          | [] => none)
         <|>
         (match dropLitCI "increment".data r1 with
          | some rest => some ("SERIAL".data, rest)
          | none => none)
       | none => none) := rfl

theorem m2_nil (p : Option Char) : m2 p [] = none := rfl

theorem m2_none_of_head {c : Char} (hc : c.toLower ≠ 'a') (t : Str) (q : Option Char) :
    m2 q (c :: t) = none := by
  rw [m2_eval]
  rw [show ("auto".data : Str) = 'a' :: 'u' :: 't' :: 'o' :: [] from rfl, dropLitCI_cons,
    if_neg hc]

theorem underscore_ne_of_toLower {c : Char} (h : c.toLower = 'i') : c ≠ '_' := by
  rintro rfl
  revert h
  decide

/-- Inversion of a successful AUTO_INCREMENT match: a non-empty consumed
prefix of word characters whose head lowers to `a`, and the match is
insensitive to what follows it. -/
theorem m2_inv {p : Option Char} {l r s : Str} (h : m2 p l = some (r, s)) :
    r = "SERIAL".data ∧
      ∃ M, M ≠ [] ∧ l = M ++ s ∧ (∀ c ∈ M, isWordChar c = true) ∧
        (∃ c0, M.head? = some c0 ∧ c0.toLower = 'a') ∧
        (∀ (q : Option Char) (X : Str), m2 q (M ++ X) = some ("SERIAL".data, X)) := by
  rw [m2_eval] at h
  generalize ha : dropLitCI "auto".data l = ares at h
  cases ares with
  | none => cases h
  | some r1 =>
    dsimp only at h
    obtain ⟨Ma, hMa1, hMa2, hMa3⟩ := dropLitCI_decomp _ l r1 ha
    have hMaw : ∀ c ∈ Ma, isWordChar c = true :=
      word_of_forall₂ hMa3 (by decide)
    have hMahead : ∃ c0, Ma.head? = some c0 ∧ c0.toLower = 'a' := by
      cases hMa3 with
      | cons hc _ => exact ⟨_, rfl, hc⟩
    cases r1 with
    | nil =>
      dsimp only at h
      rw [show dropLitCI "increment".data ([] : Str) = none from rfl] at h
      cases h
    | cons c r2 =>
      dsimp only at h
      by_cases hc : c = '_'
      · subst hc
        rw [if_pos rfl] at h
        generalize hi : dropLitCI "increment".data r2 = ires at h
        cases ires with
        | none =>
          dsimp only at h
          rw [show dropLitCI "increment".data ('_' :: r2) = none by
              rw [show ("increment".data : Str) = 'i' :: "ncrement".data from rfl,
                dropLitCI_cons, if_neg (by decide)]] at h
          dsimp only at h
          rw [show ((none : Option (Str × Str)) <|> (none : Option (Str × Str))) = none
            from rfl] at h
          cases h
        | some rest =>
          dsimp only at h
          rw [show ((some (("SERIAL".data : Str), rest) : Option (Str × Str)) <|> _)
            = some ("SERIAL".data, rest) from rfl] at h
          obtain ⟨h1, h2⟩ := Prod.mk.injEq .. ▸ Option.some.inj h
          subst h2
          obtain ⟨Mi, hMi1, hMi2, hMi3⟩ := dropLitCI_decomp _ r2 rest hi
          have hMiw : ∀ c ∈ Mi, isWordChar c = true :=
            word_of_forall₂ hMi3 (by decide)
          refine ⟨h1.symm, Ma ++ '_' :: Mi, ?_, ?_, ?_, ?_, ?_⟩
          · obtain ⟨c0, hc0, _⟩ := hMahead
            intro hE
            rw [List.append_eq_nil] at hE
            rw [hE.1] at hc0
            cases hc0
          · rw [hMa1, hMi1]
            simp
          · intro x hx
            rcases List.mem_append.mp hx with h1' | h2'
            · exact hMaw x h1'
            · rcases List.mem_cons.mp h2' with h3 | h4
              · subst h3; decide
              · exact hMiw x h4
          · obtain ⟨c0, hc0, hc0l⟩ := hMahead
            refine ⟨c0, ?_, hc0l⟩
            cases Ma with
            | nil => cases hc0
            | cons a t => simpa using hc0
          · intro q X
            rw [m2_eval]
            rw [show (Ma ++ '_' :: Mi) ++ X = Ma ++ ('_' :: (Mi ++ X)) by simp]
            rw [dropLitCI_transport _ Ma hMa3 ('_' :: (Mi ++ X))]
            dsimp only
            rw [if_pos rfl]
            rw [dropLitCI_transport _ Mi hMi3 X]
            rfl
      · rw [if_neg hc] at h
        rw [show ((none : Option (Str × Str)) <|> (match dropLitCI "increment".data (c :: r2) with
              | some rest => some (("SERIAL".data : Str), rest)
              | none => none))
            = (match dropLitCI "increment".data (c :: r2) with
              | some rest => some (("SERIAL".data : Str), rest)
              | none => none) from rfl] at h
        generalize hi : dropLitCI "increment".data (c :: r2) = ires at h
        cases ires with
        | none => cases h
        | some rest =>
          dsimp only at h
          obtain ⟨h1, h2⟩ := Prod.mk.injEq .. ▸ Option.some.inj h
          subst h2
          obtain ⟨Mi, hMi1, hMi2, hMi3⟩ := dropLitCI_decomp _ (c :: r2) rest hi
          have hMiw : ∀ x ∈ Mi, isWordChar x = true :=
            word_of_forall₂ hMi3 (by decide)
          have hMihead : ∃ d, Mi.head? = some d ∧ d.toLower = 'i' := by
            cases hMi3 with
            | cons hd _ => exact ⟨_, rfl, hd⟩
          refine ⟨h1.symm, Ma ++ Mi, ?_, ?_, ?_, ?_, ?_⟩
          · obtain ⟨c0, hc0, _⟩ := hMahead
            intro hE
            rw [List.append_eq_nil] at hE
            rw [hE.1] at hc0
            cases hc0
          · rw [hMa1, hMi1]
            simp
          · intro x hx
            rcases List.mem_append.mp hx with h1' | h2'
            · exact hMaw x h1'
            · exact hMiw x h2'
          · obtain ⟨c0, hc0, hc0l⟩ := hMahead
            refine ⟨c0, ?_, hc0l⟩
            cases Ma with
            | nil => cases hc0
            | cons a t => simpa using hc0
          · intro q X
            rw [m2_eval]
            rw [show (Ma ++ Mi) ++ X = Ma ++ (Mi ++ X) by simp]
            rw [dropLitCI_transport _ Ma hMa3 (Mi ++ X)]
            dsimp only
            obtain ⟨d, hd, hdl⟩ := hMihead
            cases Mi with
            | nil => cases hd
            | cons d2 Mi2 =>
              have hdd : d2 = d := by simpa using hd
              subst hdd
              rw [show ((d2 :: Mi2) ++ X : Str) = d2 :: (Mi2 ++ X) from rfl]
              dsimp only
              rw [if_neg (underscore_ne_of_toLower hdl)]
              have htr := dropLitCI_transport _ (d2 :: Mi2) hMi3 X
              rw [show ((d2 :: Mi2) ++ X : Str) = d2 :: (Mi2 ++ X) from rfl] at htr
              rw [htr]
              rfl

theorem m2_mok : MOk m2 := by
  constructor
  · intro p l r s h
    obtain ⟨_, M, hne, hl, _, _, _⟩ := m2_inv h
    rw [hl]
    cases M with
    | nil => exact absurd rfl hne
    | cons a t => simp; omega
  · intro p l r s h
    obtain ⟨_, M, _, hl, _, _, _⟩ := m2_inv h
    exact ⟨M, hl.symm⟩

/-! ## Splitting the two matchers at a non-word delimiter -/

theorem nonword_ne_underscore {d : Char} (hW : isWordChar d = false) : d ≠ '_' := by
  rintro rfl
  revert hW
  decide

theorem notWordNext_append_nonword {d : Char} (hW : isWordChar d = false)
    (rest v : Str) : notWordNext (rest ++ d :: v) = notWordNext rest := by
  cases rest with
  | nil => simp [notWordNext, hW]
  | cons c t => rfl

theorem m3a_ref {d : Char} (hW : isWordChar d = false) (p : Option Char) (u v : Str) :
    m3a p (u ++ d :: v) = (m3a p u).map (fun rs => (rs.1, rs.2 ++ d :: v)) := by
  rw [m3a_eval, m3a_eval]
  by_cases hb : bdry p = true
  · rw [if_pos hb, if_pos hb]
    rw [dropLitCI_append hW _ (by decide) u v]
    cases hd : dropLitCI "int".data u with
    | none => rfl
    | some rest =>
      simp only [Option.map_some']
      rw [notWordNext_append_nonword hW rest v]
      by_cases hw : notWordNext rest = true
      · rw [if_pos hw, if_pos hw]
        rfl
      · rw [if_neg hw, if_neg hw]
        rfl
  · rw [if_neg hb, if_neg hb]
    rfl

theorem dropLitCI_increment_head {d : Char} (hW : isWordChar d = false) (v : Str) :
    dropLitCI "increment".data (d :: v) = none := by
  rw [show ("increment".data : Str) = 'i' :: "ncrement".data from rfl, dropLitCI_cons,
    if_neg (toLower_ne_of_not_word hW (by decide))]

theorem m2_ref {d : Char} (hW : isWordChar d = false) (p : Option Char) (u v : Str) :
    m2 p (u ++ d :: v) = (m2 p u).map (fun rs => (rs.1, rs.2 ++ d :: v)) := by
  have hdi : ∀ q ∈ ("increment".data : Str), isWordChar q = true := by decide
  rw [m2_eval, m2_eval]
  rw [dropLitCI_append hW _ (by decide) u v]
  cases ha : dropLitCI "auto".data u with
  | none => rfl
  | some r1 =>
    simp only [Option.map_some']
    cases r1 with
    | nil =>
      rw [List.nil_append]
      dsimp only
      rw [if_neg (nonword_ne_underscore hW)]
      rw [dropLitCI_increment_head hW v]
      rfl
    | cons c r2 =>
      rw [show ((c :: r2) ++ d :: v : Str) = c :: (r2 ++ d :: v) from rfl]
      dsimp only
      by_cases hc : c = '_'
      · rw [if_pos hc, if_pos hc]
        rw [dropLitCI_append hW _ hdi r2 v]
        cases hi : dropLitCI "increment".data r2 with
        | none =>
          simp only [Option.map_none', Option.none_orElse]
          have h2 := dropLitCI_append hW ("increment".data) hdi (c :: r2) v
          rw [show ((c :: r2) ++ d :: v : Str) = c :: (r2 ++ d :: v) from rfl] at h2
          rw [h2]
          cases hi2 : dropLitCI "increment".data (c :: r2) with
          | none => rfl
          | some rest2 => rfl
        | some rest =>
          simp only [Option.map_some', Option.some_orElse]
      · rw [if_neg hc, if_neg hc]
        simp only [Option.none_orElse]
        have h2 := dropLitCI_append hW ("increment".data) hdi (c :: r2) v
        rw [show ((c :: r2) ++ d :: v : Str) = c :: (r2 ++ d :: v) from rfl] at h2
        rw [h2]
        cases hi : dropLitCI "increment".data (c :: r2) with
        | none => rfl
        | some rest => rfl

/-! ## The two matchers commute with the rule 1 scan -/

theorem dropLit_r1C :
    ∀ (pat : Str), (∀ q ∈ pat, isWordChar q = true) →
      ∀ (cs : Str), dropLitCI pat (r1C cs) = (dropLitCI pat cs).map r1C := by
  intro pat hpat
  induction pat with
  | nil => intro cs; rfl
  | cons p ps ih =>
    intro cs
    have hpword : isWordChar p = true := hpat p (by simp)
    cases cs with
    | nil => rw [r1C_nil]; rfl
    | cons c cs' =>
      by_cases hc : c = tickC
      · subst hc
        by_cases hnc : noCloseTick cs' = true
        · rw [r1C_cons_tick_none hnc, dropLitCI_cons, dropLitCI_cons,
            if_neg (toLower_ne_of_not_word (by decide) hpword),
            if_neg (toLower_ne_of_not_word (by decide) hpword)]
          rfl
        · cases ht : tickInner cs' with
          | none => exact absurd ((tickInner_none_iff cs').mp ht) hnc
          | some ir =>
            obtain ⟨inner, rest⟩ := ir
            obtain ⟨hd, hi1, hi2⟩ := tickInner_decomp cs' inner rest ht
            rw [hd, r1C_cons_tick_some hi1 hi2 rest, dropLitCI_cons, dropLitCI_cons,
              if_neg (toLower_ne_of_not_word (by decide) hpword),
              if_neg (toLower_ne_of_not_word (by decide) hpword)]
            rfl
      · rw [r1C_cons_ne hc cs', dropLitCI_cons, dropLitCI_cons]
        by_cases hcl : c.toLower = p
        · rw [if_pos hcl, if_pos hcl]
          exact ih (fun q hq => hpat q (by simp [hq])) cs'
        · rw [if_neg hcl, if_neg hcl]
          rfl

theorem m3a_lift (p : Option Char) (l : Str) :
    m3a p (r1C l) = (m3a p l).map (fun rs => (rs.1, r1C rs.2)) := by
  rw [m3a_eval, m3a_eval]
  by_cases hb : bdry p = true
  · rw [if_pos hb, if_pos hb]
    rw [dropLit_r1C _ (by decide) l]
    cases hd : dropLitCI "int".data l with
    | none => rfl
    | some rest =>
      simp only [Option.map_some']
      rw [notWordNext_r1C rest]
      by_cases hw : notWordNext rest = true
      · rw [if_pos hw, if_pos hw]
        rfl
      · rw [if_neg hw, if_neg hw]
        rfl
  · rw [if_neg hb, if_neg hb]
    rfl

theorem m2_lift (p : Option Char) (l : Str) :
    m2 p (r1C l) = (m2 p l).map (fun rs => (rs.1, r1C rs.2)) := by
  rw [m2_eval, m2_eval]
  rw [dropLit_r1C _ (by decide) l]
  cases ha : dropLitCI "auto".data l with
  | none => rfl
  | some r1 =>
    simp only [Option.map_some']
    cases r1 with
    | nil => rw [r1C_nil]; rfl
    | cons c r2 =>
      by_cases hc : c = tickC
      · subst hc
        by_cases hnc : noCloseTick r2 = true
        · rw [r1C_cons_tick_none hnc]
          dsimp only
          rw [if_neg (by decide : tickC ≠ '_'), if_neg (by decide : tickC ≠ '_')]
          rw [dropLitCI_increment_head (by decide) (r1C r2),
            dropLitCI_increment_head (by decide) r2]
          rfl
        · cases ht : tickInner r2 with
          | none => exact absurd ((tickInner_none_iff r2).mp ht) hnc
          | some ir =>
            obtain ⟨inner, rest⟩ := ir
            obtain ⟨hd, hi1, hi2⟩ := tickInner_decomp r2 inner rest ht
            rw [hd, r1C_cons_tick_some hi1 hi2 rest]
            dsimp only
            rw [if_neg (by decide : dquoteC ≠ '_'), if_neg (by decide : tickC ≠ '_')]
            rw [dropLitCI_increment_head (by decide) (inner ++ dquoteC :: r1C rest),
              dropLitCI_increment_head (by decide) (inner ++ tickC :: rest)]
            rfl
      · rw [r1C_cons_ne hc r2]
        dsimp only
        by_cases hc2 : c = '_'
        · rw [if_pos hc2, if_pos hc2]
          rw [dropLit_r1C _ (by decide) r2]
          cases hi : dropLitCI "increment".data r2 with
          | none =>
            simp only [Option.map_none', Option.none_orElse]
            subst hc2
            rw [dropLitCI_cons, dropLitCI_cons, if_neg (by decide : ('_' : Char).toLower ≠ 'i'),
              if_neg (by decide : ('_' : Char).toLower ≠ 'i')]
            rfl
          | some rest =>
            simp only [Option.map_some', Option.some_orElse]
        · rw [if_neg hc2, if_neg hc2]
          simp only [Option.none_orElse]
          have h2 := dropLit_r1C ("increment".data) (by decide) (c :: r2)
          rw [r1C_cons_ne hc r2] at h2
          rw [h2]
          cases hi : dropLitCI "increment".data (c :: r2) with
          | none => rfl
          | some rest => rfl

/-! ## The main commutation: a word-pattern scanner commutes with rule 1 -/

theorem main_comm (mF : Option Char → Str → Option (Str × Str))
    (hmok : MOk mF)
    (hnil : ∀ p, mF p [] = none)
    (hcl : ∀ p q l, bdry p = bdry q → mF p l = mF q l)
    (href : ∀ {d : Char}, isWordChar d = false → ∀ (p : Option Char) (u v : Str),
      mF p (u ++ d :: v) = (mF p u).map (fun rs => (rs.1, rs.2 ++ d :: v)))
    (hlift : ∀ p l, mF p (r1C l) = (mF p l).map (fun rs => (rs.1, r1C rs.2)))
    (hinv : ∀ p l r s, mF p l = some (r, s) →
      ∃ M, M ≠ [] ∧ l = M ++ s ∧ (∀ c ∈ M, isWordChar c = true) ∧
        (∀ X, notWordNext X = notWordNext s → mF p (M ++ X) = some (r, X)))
    (hrep : ∀ p l r s, mF p l = some (r, s) → ∀ c ∈ r, c ≠ tickC ∧ c ≠ '\n') :
    ∀ (n : Nat) (l : Str), l.length ≤ n → ∀ (p : Option Char),
      substC mF p (r1C l) = r1C (substC mF p l) := by
  have hnm : ∀ {d : Char}, isWordChar d = false → ∀ (q : Option Char) (v : Str),
      mF q (d :: v) = none := by
    intro d hW q v
    have := href hW q [] v
    rw [hnil] at this
    simpa using this
  have hreptick : ∀ p l r s, mF p l = some (r, s) → tickC ∉ r := by
    intro p l r s h hx
    exact (hrep p l r s h tickC hx).1 rfl
  have hrepnl : ∀ p l r s, mF p l = some (r, s) → '\n' ∉ r := by
    intro p l r s h hx
    exact (hrep p l r s h '\n' hx).2 rfl
  have hmatch' : ∀ p l r s, mF p l = some (r, s) →
      ∃ M, l = M ++ s ∧ ∀ c ∈ M, c ≠ tickC ∧ c ≠ '\n' := by
    intro p l r s h
    obtain ⟨M, _, hMeq, hMw, _⟩ := hinv p l r s h
    exact ⟨M, hMeq, fun c hc => ⟨word_ne_tick (hMw c hc), word_ne_nl (hMw c hc)⟩⟩
  intro n
  induction n with
  | zero =>
    intro l hl p
    have : l = [] := List.length_eq_zero.mp (Nat.le_zero.mp hl)
    subst this
    rw [r1C_nil, substC_nil, r1C_nil]
  | succ n ih =>
    intro l hl p
    cases l with
    | nil => rw [r1C_nil, substC_nil, r1C_nil]
    | cons c cs =>
      cases hm : mF p (c :: cs) with
      | some rs =>
        obtain ⟨r, s⟩ := rs
        obtain ⟨M, hMne, hMeq, hMw, htrans⟩ := hinv p (c :: cs) r s hm
        have hMtick : tickC ∉ M := fun hmem => word_ne_tick (hMw _ hmem) rfl
        have hrt : tickC ∉ r := hreptick p (c :: cs) r s hm
        have hslen : s.length ≤ n := by
          have := hmok.consume p (c :: cs) r s hm
          simp at hl this
          omega
        rw [hMeq] at hm ⊢
        cases M with
        | nil => exact absurd rfl hMne
        | cons c0 M' =>
          have hshape : (c0 :: M') ++ s = c0 :: (M' ++ s) := rfl
          have hshape2 : (c0 :: M') ++ r1C s = c0 :: (M' ++ r1C s) := rfl
          -- the scan of the rewritten text matches exactly the consumed prefix
          have hm2 : mF p ((c0 :: M') ++ r1C s) = some (r, r1C s) :=
            htrans (r1C s) (notWordNext_r1C s)
          -- rule 1 copies the all-word consumed prefix
          rw [r1C_copy hMtick s]
          have hm2' : mF p (c0 :: (M' ++ r1C s)) = some (r, r1C s) := hshape2 ▸ hm2
          have hm' : mF p (c0 :: (M' ++ s)) = some (r, s) := hshape ▸ hm
          rw [show (c0 :: M') ++ r1C s = c0 :: (M' ++ r1C s) from rfl]
          rw [show (c0 :: M') ++ s = c0 :: (M' ++ s) from rfl]
          rw [substC_cons_some mF hmok hm2', substC_cons_some mF hmok hm']
          have e1 : (c0 :: (M' ++ r1C s)).length - (r1C s).length = (c0 :: M').length := by
            simp
            omega
          have e2 : (c0 :: (M' ++ s)).length - s.length = (c0 :: M').length := by
            simp
            omega
          rw [e1, e2]
          have e3 : (c0 :: (M' ++ r1C s)).take (c0 :: M').length = c0 :: M' := by
            rw [show c0 :: (M' ++ r1C s) = (c0 :: M') ++ r1C s from rfl]
            exact List.take_left _ _
          have e4 : (c0 :: (M' ++ s)).take (c0 :: M').length = c0 :: M' := by
            rw [show c0 :: (M' ++ s) = (c0 :: M') ++ s from rfl]
            exact List.take_left _ _
          rw [e3, e4]
          rw [r1C_copy hrt (substC mF (c0 :: M').getLast? s)]
          rw [ih s hslen ((c0 :: M').getLast?)]
      | none =>
        by_cases hc : c = tickC
        · subst hc
          by_cases hnc : noCloseTick cs = true
          · rw [r1C_cons_tick_none hnc]
            rw [substC_cons_none mF (hnm (by decide) p (r1C cs))]
            rw [substC_cons_none mF (hnm (by decide) p cs)]
            rw [ih cs (by simp at hl; omega) (some tickC)]
            have hX : noCloseTick (substC mF (some tickC) cs) = true :=
              noCloseTick_substC mF hmok hrep hmatch' cs.length cs (Nat.le_refl _)
                (some tickC) hnc
            rw [r1C_cons_tick_none hX]
          · cases ht : tickInner cs with
            | none => exact absurd ((tickInner_none_iff cs).mp ht) hnc
            | some ir =>
              obtain ⟨inner, rest⟩ := ir
              obtain ⟨hd, hi1, hi2⟩ := tickInner_decomp cs inner rest ht
              subst hd
              rw [r1C_cons_tick_some hi1 hi2 rest]
              rw [substC_cons_none mF (hnm (by decide) p (inner ++ dquoteC :: r1C rest))]
              rw [substC_cons_none mF (hnm (by decide) p (inner ++ tickC :: rest))]
              rw [substC_split mF hmok (r1C rest) hnil
                (fun p u => @href dquoteC (by decide) p u (r1C rest))
                inner.length inner (Nat.le_refl _) (some dquoteC)]
              rw [substC_split mF hmok rest hnil
                (fun p u => @href tickC (by decide) p u rest)
                inner.length inner (Nat.le_refl _) (some tickC)]
              have hrest : rest.length ≤ n := by
                simp at hl
                omega
              rw [ih rest hrest (some dquoteC)]
              have hce : bdry (some dquoteC) = bdry (some tickC) := by decide
              rw [substC_prev mF hmok hcl inner hce]
              rw [substC_prev mF hmok hcl rest hce]
              have hFi1 : tickC ∉ substC mF (some tickC) inner :=
                substC_not_mem mF hmok tickC hreptick inner.length inner (Nat.le_refl _)
                  (some tickC) hi1
              have hFi2 : '\n' ∉ substC mF (some tickC) inner :=
                substC_not_mem mF hmok '\n' hrepnl inner.length inner (Nat.le_refl _)
                  (some tickC) hi2
              rw [r1C_cons_tick_some hFi1 hFi2 (substC mF (some tickC) rest)]
        · rw [r1C_cons_ne hc cs]
          have hlm : mF p (c :: r1C cs) = none := by
            have := hlift p (c :: cs)
            rw [hm, r1C_cons_ne hc cs] at this
            simpa using this
          rw [substC_cons_none mF hlm, substC_cons_none mF hm]
          rw [ih cs (by simp at hl; omega) (some c)]
          rw [r1C_cons_ne hc (substC mF (some c) cs)]

theorem comm_r1_m2 (l : Str) (p : Option Char) :
    substC m2 p (r1C l) = r1C (substC m2 p l) := by
  refine main_comm m2 m2_mok m2_nil (fun p q l _ => m2_prev_irrel p q l)
    (fun hW p u v => m2_ref hW p u v) m2_lift ?_ ?_ l.length l (Nat.le_refl _) p
  · intro p l r s h
    obtain ⟨hr, M, hne, heq, hw, _, htr⟩ := m2_inv h
    refine ⟨M, hne, heq, hw, fun X _ => ?_⟩
    rw [hr]
    exact htr p X
  · intro p l r s h
    rw [(m2_inv h).1]
    intro c hc
    have hall : ∀ c ∈ ("SERIAL".data : Str), c ≠ tickC ∧ c ≠ '\n' := by decide
    exact hall c hc

theorem comm_r1_m3a (l : Str) (p : Option Char) :
    substC m3a p (r1C l) = r1C (substC m3a p l) := by
  refine main_comm m3a m3a_mok m3a_nil m3a_classinv
    (fun hW p u v => m3a_ref hW p u v) m3a_lift ?_ ?_ l.length l (Nat.le_refl _) p
  · intro p l r s h
    obtain ⟨hr, hb, c0, c1, c2, hleq, h0, h1, h2, hw⟩ := m3a_inv h
    refine ⟨[c0, c1, c2], by simp, by simpa using hleq, ?_, ?_⟩
    · intro c hc
      have hcases : c = c0 ∨ c = c1 ∨ c = c2 := by simpa using hc
      rcases hcases with h' | h' | h'
      · exact h' ▸ isWordChar_of_toLower_eq h0 (by decide)
      · exact h' ▸ isWordChar_of_toLower_eq h1 (by decide)
      · exact h' ▸ isWordChar_of_toLower_eq h2 (by decide)
    · intro X hX
      rw [hr]
      exact m3a_transport hb h0 h1 h2 (hX.trans hw)
  · intro p l r s h
    rw [(m3a_inv h).1]
    intro c hc
    have hall : ∀ c ∈ ("INTEGER".data : Str), c ≠ tickC ∧ c ≠ '\n' := by decide
    exact hall c hc

/-! ## Rule 3's second substitution never fires after the first -/

theorem m3b_eval (p : Option Char) (l : Str) :
    m3b p l = if bdry p then
      (match dropLitCI "int".data l with
       | some (c :: r1) =>
         if c = '(' then
           match List.span Char.isDigit r1 with
           | (ds, r2) =>
             if ds.isEmpty then none
             else
               match r2 with
               | d :: rest => if d = ')' then some ("INTEGER".data, rest) else none
               | [] => none
         else none
       | _ => none)
      else none := rfl

theorem m3b_none_of_head {c : Char} (hc : c.toLower ≠ 'i') (t : Str) (q : Option Char) :
    m3b q (c :: t) = none := by
  rw [m3b_eval]
  split
  · rw [show ("int".data : Str) = 'i' :: 'n' :: 't' :: [] from rfl, dropLitCI_cons,
      if_neg hc]
  · rfl

/-- After the whole-word INT substitution has run, the parenthesised INT
matcher finds nothing: every surviving `int` is word-adjacent or was just
rewritten to `INTEGER`. -/
theorem m3b_none_after_m3a {p q : Option Char} {c : Char} {cs : Str}
    (hq : bdry q = bdry p) (hm : m3a p (c :: cs) = none) :
    m3b q (c :: substC m3a (some c) cs) = none := by
  rw [m3b_eval]
  by_cases hbq : bdry q = true
  · rw [if_pos hbq]
    have hbp : bdry p = true := hq ▸ hbq
    by_cases h0 : c.toLower = 'i'
    · have hcw : isWordChar c = true := isWordChar_of_toLower_eq h0 (by decide)
      cases cs with
      | nil =>
        rw [substC_nil]
        rw [show ("int".data : Str) = 'i' :: 'n' :: 't' :: [] from rfl, dropLitCI_cons,
          if_pos h0]
        rfl
      | cons c1 cs1 =>
        rw [substC_cons_none m3a (m3a_none_of_word_prev hcw (c1 :: cs1))]
        by_cases h1 : c1.toLower = 'n'
        · have hc1w : isWordChar c1 = true := isWordChar_of_toLower_eq h1 (by decide)
          cases cs1 with
          | nil =>
            rw [substC_nil]
            rw [show ("int".data : Str) = 'i' :: 'n' :: 't' :: [] from rfl,
              dropLitCI_cons, if_pos h0, dropLitCI_cons, if_pos h1]
            rfl
          | cons c2 cs2 =>
            rw [substC_cons_none m3a (m3a_none_of_word_prev hc1w (c2 :: cs2))]
            by_cases h2 : c2.toLower = 't'
            · have hc2w : isWordChar c2 = true := isWordChar_of_toLower_eq h2 (by decide)
              cases cs2 with
              | nil =>
                rw [substC_nil]
                rw [show ("int".data : Str) = 'i' :: 'n' :: 't' :: [] from rfl,
                  dropLitCI_cons, if_pos h0, dropLitCI_cons, if_pos h1, dropLitCI_cons,
                  if_pos h2, dropLitCI_nil_pat]
              | cons c3 cs3 =>
                rw [substC_cons_none m3a (m3a_none_of_word_prev hc2w (c3 :: cs3))]
                by_cases h3 : c3 = '('
                · exfalso
                  have hnw : notWordNext (c3 :: cs3) = true := by
                    subst h3
                    show (!isWordChar '(') = true
                    decide
                  have := m3a_transport hbp h0 h1 h2 hnw
                  rw [hm] at this
                  cases this
                · rw [show ("int".data : Str) = 'i' :: 'n' :: 't' :: [] from rfl,
                    dropLitCI_cons, if_pos h0, dropLitCI_cons, if_pos h1, dropLitCI_cons,
                    if_pos h2, dropLitCI_nil_pat]
                  dsimp only
                  rw [if_neg h3]
            · rw [show ("int".data : Str) = 'i' :: 'n' :: 't' :: [] from rfl,
                dropLitCI_cons, if_pos h0, dropLitCI_cons, if_pos h1, dropLitCI_cons,
                if_neg h2]
        · rw [show ("int".data : Str) = 'i' :: 'n' :: 't' :: [] from rfl,
            dropLitCI_cons, if_pos h0, dropLitCI_cons, if_neg h1]
    · rw [show ("int".data : Str) = 'i' :: 'n' :: 't' :: [] from rfl, dropLitCI_cons,
        if_neg h0]
  · rw [if_neg hbq]

theorem m3b_fails_on_INTEGER (z : Str) (q : Option Char) (i : Nat)
    (hi : i < ("INTEGER".data : Str).length) :
    m3b q (("INTEGER".data : Str).drop i ++ z) = none := by
  have hi7 : i < 7 := by simpa using hi
  clear hi
  interval_cases i
  · rw [show (("INTEGER".data : Str).drop 0 ++ z)
        = 'I' :: 'N' :: 'T' :: 'E' :: 'G' :: 'E' :: 'R' :: z from rfl]
    rw [m3b_eval]
    split
    · rw [show ("int".data : Str) = 'i' :: 'n' :: 't' :: [] from rfl, dropLitCI_cons,
        if_pos (by decide), dropLitCI_cons, if_pos (by decide), dropLitCI_cons,
        if_pos (by decide), dropLitCI_nil_pat]
      dsimp only
      rw [if_neg (by decide : ('E' : Char) ≠ '(')]
    · rfl
  · exact m3b_none_of_head (by decide) _ q
  · exact m3b_none_of_head (by decide) _ q
  · exact m3b_none_of_head (by decide) _ q
  · exact m3b_none_of_head (by decide) _ q
  · exact m3b_none_of_head (by decide) _ q
  · exact m3b_none_of_head (by decide) _ q

/-- Rule 3's second substitution is the identity on the output of the
first: the preceding whole-word pass already rewrote every `INT` that the
parenthesised pattern could anchor on. -/
theorem dead_m3b :
    ∀ (n : Nat) (l : Str), l.length ≤ n → ∀ (p q : Option Char), bdry q = bdry p →
      substC m3b q (substC m3a p l) = substC m3a p l := by
  intro n
  induction n with
  | zero =>
    intro l hl p q _
    have : l = [] := List.length_eq_zero.mp (Nat.le_zero.mp hl)
    subst this
    rw [substC_nil, substC_nil]
  | succ n ih =>
    intro l hl p q hpq
    cases l with
    | nil => rw [substC_nil, substC_nil]
    | cons c cs =>
      cases hm : m3a p (c :: cs) with
      | some rs =>
        obtain ⟨r, s⟩ := rs
        obtain ⟨hr, hbp, c0, c1, c2, hleq, h0, h1, h2, hw⟩ := m3a_inv hm
        subst hr
        obtain ⟨he1, he2⟩ := List.cons.injEq .. ▸ hleq
        rw [substC_cons_some m3a m3a_mok hm]
        have eprev : (((c :: cs).take ((c :: cs).length - s.length)).getLast?)
            = some c2 := by
          rw [hleq]
          rw [show (c0 :: c1 :: c2 :: s).length - s.length = 3 by simp; omega]
          rfl
        rw [eprev]
        rw [substC_copy m3b (substC m3a (some c2) s) ("INTEGER".data) q
          (fun q' i hi => m3b_fails_on_INTEGER (substC m3a (some c2) s) q' i hi)]
        have hlast : lastPrev q ("INTEGER".data : Str) = some 'R' := rfl
        rw [hlast]
        have hslen : s.length ≤ n := by
          rw [hleq] at hl
          simp at hl
          omega
        rw [ih s hslen (some c2) (some 'R') (by
          show bdry (some 'R') = bdry (some c2)
          have : isWordChar c2 = true := isWordChar_of_toLower_eq h2 (by decide)
          show (!isWordChar 'R') = (!isWordChar c2)
          rw [this]
          decide)]
      | none =>
        rw [substC_cons_none m3a hm]
        rw [substC_cons_none m3b (m3b_none_after_m3a hpq hm)]
        rw [ih cs (by simp at hl; omega) (some c) (some c) rfl]

/-! ## Rule 2 and rule 3's first substitution commute -/

theorem toLower_ne_trans {c x y : Char} (h : c.toLower = x) (hxy : x ≠ y) :
    c.toLower ≠ y := by
  rw [h]
  exact hxy

theorem dropLit_m3a :
    ∀ (pat : Str), (∀ q ∈ pat, isWordChar q = true) →
      ∀ (cs : Str) (w : Char), isWordChar w = true →
        dropLitCI pat (substC m3a (some w) cs)
          = (dropLitCI pat cs).map (fun r => substC m3a (some w) r) := by
  intro pat hpat
  induction pat with
  | nil => intro cs w hw; rfl
  | cons p ps ih =>
    intro cs w hw
    cases cs with
    | nil => rw [substC_nil]; rfl
    | cons c cs' =>
      rw [substC_cons_none m3a (m3a_none_of_word_prev hw (c :: cs'))]
      rw [dropLitCI_cons, dropLitCI_cons]
      by_cases hcl : c.toLower = p
      · rw [if_pos hcl, if_pos hcl]
        have hcw : isWordChar c = true :=
          isWordChar_of_toLower_eq hcl (hpat p (by simp))
        rw [ih (fun x hx => hpat x (by simp [hx])) cs' c hcw]
        cases hd : dropLitCI ps cs' with
        | none => rfl
        | some r =>
          simp only [Option.map_some']
          rw [substC_prev m3a m3a_mok m3a_classinv r
            (show bdry (some c) = bdry (some w) by
              show (!isWordChar c) = (!isWordChar w)
              rw [hcw, hw])]
      · rw [if_neg hcl, if_neg hcl]
        rfl

theorem m2_lift2 (p : Option Char) (l : Str) {w : Char} (hw : isWordChar w = true) :
    m2 p (substC m3a (some w) l)
      = (m2 p l).map (fun rs => (rs.1, substC m3a (some w) rs.2)) := by
  rw [m2_eval, m2_eval]
  rw [dropLit_m3a _ (by decide) l w hw]
  cases ha : dropLitCI "auto".data l with
  | none => rfl
  | some r1 =>
    simp only [Option.map_some']
    cases r1 with
    | nil => rw [substC_nil]; rfl
    | cons c r2 =>
      rw [substC_cons_none m3a (m3a_none_of_word_prev hw (c :: r2))]
      dsimp only
      by_cases hc : c = '_'
      · rw [if_pos hc, if_pos hc]
        have hcw : isWordChar c = true := by subst hc; decide
        rw [dropLit_m3a _ (by decide) r2 c hcw]
        cases hi : dropLitCI "increment".data r2 with
        | none =>
          simp only [Option.map_none', Option.none_orElse]
          subst hc
          rw [dropLitCI_cons, dropLitCI_cons,
            if_neg (by decide : ('_' : Char).toLower ≠ 'i'),
            if_neg (by decide : ('_' : Char).toLower ≠ 'i')]
          rfl
        | some rest =>
          simp only [Option.map_some', Option.some_orElse]
          rw [substC_prev m3a m3a_mok m3a_classinv rest
            (show bdry (some c) = bdry (some w) by
              show (!isWordChar c) = (!isWordChar w)
              rw [hcw, hw])]
      · rw [if_neg hc, if_neg hc]
        simp only [Option.none_orElse]
        have h2 := dropLit_m3a ("increment".data) (by decide) (c :: r2) w hw
        rw [substC_cons_none m3a (m3a_none_of_word_prev hw (c :: r2))] at h2
        rw [h2]
        cases hi : dropLitCI "increment".data (c :: r2) with
        | none => rfl
        | some rest => rfl

theorem notWordNext_m2scan (p : Option Char) (s : Str) :
    notWordNext (substC m2 p s) = notWordNext s := by
  cases s with
  | nil => rw [substC_nil]
  | cons c cs =>
    cases hm : m2 p (c :: cs) with
    | none => rw [substC_cons_none m2 hm]; rfl
    | some rs =>
      obtain ⟨r, s'⟩ := rs
      rw [substC_cons_some m2 m2_mok hm]
      obtain ⟨hr, M, hne, hMeq, hMw, ⟨c0, hc0, hc0l⟩, _⟩ := m2_inv hm
      subst hr
      have hchead : c = c0 := by
        cases M with
        | nil => cases hc0
        | cons a t =>
          have h1 : a = c0 := by simpa using hc0
          have h2 : c = a := by
            have := congrArg List.head? hMeq
            simpa using this
          rw [h2, h1]
      have hcw : isWordChar c = true :=
        hchead ▸ isWordChar_of_toLower_eq hc0l (by decide)
      show (!isWordChar 'S') = (!isWordChar c)
      rw [hcw]
      decide

theorem dropLit_nt_serial (z : Str) :
    dropLitCI ('n' :: 't' :: ([] : Str)) ("SERIAL".data ++ z) = none := by
  rw [show (("SERIAL".data : Str) ++ z) = 'S' :: ("ERIAL".data ++ z) from rfl]
  rw [dropLitCI_cons, if_neg (by decide : ('S' : Char).toLower ≠ 'n')]

theorem dropLit_t_serial (z : Str) :
    dropLitCI ('t' :: ([] : Str)) ("SERIAL".data ++ z) = none := by
  rw [show (("SERIAL".data : Str) ++ z) = 'S' :: ("ERIAL".data ++ z) from rfl]
  rw [dropLitCI_cons, if_neg (by decide : ('S' : Char).toLower ≠ 't')]

theorem m3a_none_m2scan {q : Option Char} {l : Str} (hm : m3a q l = none)
    (p : Option Char) : m3a q (substC m2 p l) = none := by
  by_cases hbq : bdry q = true
  · cases l with
    | nil => rw [substC_nil]; exact hm
    | cons c cs =>
      cases hm2 : m2 p (c :: cs) with
      | some rs =>
        obtain ⟨r, s⟩ := rs
        rw [substC_cons_some m2 m2_mok hm2, (m2_inv hm2).1]
        exact m3a_none_of_head (by decide) _ q
      | none =>
        rw [substC_cons_none m2 hm2]
        by_cases h0 : c.toLower = 'i'
        · cases cs with
          | nil => rw [substC_nil]; exact hm
          | cons c1 cs1 =>
            cases hm21 : m2 (some c) (c1 :: cs1) with
            | some rs =>
              obtain ⟨r, s⟩ := rs
              rw [substC_cons_some m2 m2_mok hm21, (m2_inv hm21).1]
              rw [m3a_eval, if_pos hbq]
              rw [show ("int".data : Str) = 'i' :: 'n' :: 't' :: [] from rfl,
                dropLitCI_cons, if_pos h0, dropLit_nt_serial]
            | none =>
              rw [substC_cons_none m2 hm21]
              by_cases h1 : c1.toLower = 'n'
              · cases cs1 with
                | nil => rw [substC_nil]; exact hm
                | cons c2 cs2 =>
                  cases hm22 : m2 (some c1) (c2 :: cs2) with
                  | some rs =>
                    obtain ⟨r, s⟩ := rs
                    rw [substC_cons_some m2 m2_mok hm22, (m2_inv hm22).1]
                    rw [m3a_eval, if_pos hbq]
                    rw [show ("int".data : Str) = 'i' :: 'n' :: 't' :: [] from rfl,
                      dropLitCI_cons, if_pos h0, dropLitCI_cons, if_pos h1,
                      dropLit_t_serial]
                  | none =>
                    rw [substC_cons_none m2 hm22]
                    by_cases h2 : c2.toLower = 't'
                    · rw [m3a_eval, if_pos hbq]
                      rw [show ("int".data : Str) = 'i' :: 'n' :: 't' :: [] from rfl,
                        dropLitCI_cons, if_pos h0, dropLitCI_cons, if_pos h1,
                        dropLitCI_cons, if_pos h2, dropLitCI_nil_pat]
                      dsimp only
                      rw [notWordNext_m2scan (some c2) cs2]
                      cases hx : notWordNext cs2 with
                      | true =>
                        exfalso
                        have := m3a_transport hbq h0 h1 h2 hx
                        rw [hm] at this
                        cases this
                      | false =>
                        rw [if_neg (by simp)]
                    · rw [m3a_eval, if_pos hbq]
                      rw [show ("int".data : Str) = 'i' :: 'n' :: 't' :: [] from rfl,
                        dropLitCI_cons, if_pos h0, dropLitCI_cons, if_pos h1,
                        dropLitCI_cons, if_neg h2]
              · rw [m3a_eval, if_pos hbq]
                rw [show ("int".data : Str) = 'i' :: 'n' :: 't' :: [] from rfl,
                  dropLitCI_cons, if_pos h0, dropLitCI_cons, if_neg h1]
        · exact m3a_none_of_head h0 _ q
  · rw [m3a_eval, if_neg hbq]

theorem substC_m3a_word_chunk :
    ∀ (M : Str), (∀ c ∈ M, isWordChar c = true) → ∀ (q : Option Char) (s : Str),
      m3a q (M ++ s) = none →
      substC m3a q (M ++ s) = M ++ substC m3a (lastPrev q M) s := by
  intro M
  induction M with
  | nil =>
    intro _ q s _
    rw [List.nil_append, List.nil_append, lastPrev_nil]
  | cons a M' ih =>
    intro hM q s h0
    rw [List.cons_append]
    rw [substC_cons_none m3a (show m3a q (a :: (M' ++ s)) = none from h0)]
    rw [ih (fun c hc => hM c (by simp [hc])) (some a) s
      (m3a_none_of_word_prev (hM a (by simp)) (M' ++ s))]
    rw [lastPrev_cons]
    rfl

theorem m2_fails_on_INTEGER (z : Str) (q : Option Char) (i : Nat)
    (hi : i < ("INTEGER".data : Str).length) :
    m2 q (("INTEGER".data : Str).drop i ++ z) = none := by
  have hi7 : i < 7 := by simpa using hi
  clear hi
  interval_cases i
  · exact m2_none_of_head (by decide) _ q
  · exact m2_none_of_head (by decide) _ q
  · exact m2_none_of_head (by decide) _ q
  · exact m2_none_of_head (by decide) _ q
  · exact m2_none_of_head (by decide) _ q
  · exact m2_none_of_head (by decide) _ q
  · exact m2_none_of_head (by decide) _ q

theorem lastPrev_word {q : Option Char} {M : Str} (hne : M ≠ [])
    (hMw : ∀ c ∈ M, isWordChar c = true) :
    ∃ w, lastPrev q M = some w ∧ isWordChar w = true := by
  refine ⟨M.getLast hne, ?_, hMw _ (List.getLast_mem hne)⟩
  have h2 : M.getLast? = some (M.getLast hne) := List.getLast?_eq_getLast M hne
  unfold lastPrev
  rw [h2]

/-- The rule-2 scan and the INT-rewriting scan of rule 3 commute, for any
previous characters of equal word-boundary class. -/
theorem sim_m2_m3a :
    ∀ (n : Nat) (l : Str), l.length ≤ n →
      ∀ (p p' q q' : Option Char), bdry q = bdry q' →
        substC m2 p (substC m3a q l) = substC m3a q' (substC m2 p' l) := by
  intro n
  induction n with
  | zero =>
    intro l hl p p' q q' hqq
    have hnil : l = [] := List.length_eq_zero.mp (Nat.le_zero.mp hl)
    subst hnil
    rw [substC_nil, substC_nil, substC_nil, substC_nil]
  | succ n ih =>
    intro l hl p p' q q' hqq
    cases l with
    | nil => rw [substC_nil, substC_nil, substC_nil, substC_nil]
    | cons c cs =>
      cases hm3 : m3a q (c :: cs) with
      | some rs =>
        obtain ⟨r, s⟩ := rs
        obtain ⟨hr, hbq, c0, c1, c2, hleq, h0, h1, h2, hw⟩ := m3a_inv hm3
        subst hr
        have hslen : s.length ≤ n := by
          have h5 := hl
          rw [hleq] at h5
          simp only [List.length_cons] at h5
          omega
        have hbq' : bdry q' = true := by rw [← hqq]; exact hbq
        have hw' : notWordNext (substC m2 (some c2) s) = true := by
          rw [notWordNext_m2scan]
          exact hw
        have e1 : (((c0 :: c1 :: c2 :: s).take
            ((c0 :: c1 :: c2 :: s).length - s.length)).getLast?) = some c2 := by
          rw [show (c0 :: c1 :: c2 :: s).length - s.length = 3 by
            simp only [List.length_cons]; omega]
          rfl
        have e2 : (((c0 :: c1 :: c2 :: substC m2 (some c2) s).take
            ((c0 :: c1 :: c2 :: substC m2 (some c2) s).length
              - (substC m2 (some c2) s).length)).getLast?) = some c2 := by
          rw [show (c0 :: c1 :: c2 :: substC m2 (some c2) s).length
              - (substC m2 (some c2) s).length = 3 by
            simp only [List.length_cons]; omega]
          rfl
        rw [hleq]
        rw [substC_cons_some m3a m3a_mok (m3a_transport hbq h0 h1 h2 hw)]
        rw [e1]
        rw [substC_copy m2 (substC m3a (some c2) s) ("INTEGER".data) p
          (fun q2 i hi => m2_fails_on_INTEGER (substC m3a (some c2) s) q2 i hi)]
        rw [substC_cons_none m2 (m2_none_of_head (toLower_ne_trans h0 (by decide)) _ p')]
        rw [substC_cons_none m2 (m2_none_of_head (toLower_ne_trans h1 (by decide)) _ (some c0))]
        rw [substC_cons_none m2 (m2_none_of_head (toLower_ne_trans h2 (by decide)) _ (some c1))]
        rw [substC_cons_some m3a m3a_mok (m3a_transport hbq' h0 h1 h2 hw')]
        rw [e2]
        refine congrArg (fun t : Str => "INTEGER".data ++ t) ?_
        exact ih s hslen (lastPrev p ("INTEGER".data : Str)) (some c2) (some c2) (some c2) rfl
      | none =>
        have hm3' : m3a q' (c :: cs) = none := by
          rw [m3a_classinv q' q _ hqq.symm]
          exact hm3
        cases hm2 : m2 p' (c :: cs) with
        | some rs =>
          obtain ⟨r, s⟩ := rs
          obtain ⟨hr, M, hne, hMeq, hMw, hMhead, htr⟩ := m2_inv hm2
          subst hr
          cases M with
          | nil => exact absurd rfl hne
          | cons m0 M' =>
            have hslen : s.length ≤ n := by
              have h5 := hl
              rw [hMeq] at h5
              simp only [List.length_append, List.length_cons] at h5
              omega
            rw [substC_cons_some m2 m2_mok hm2]
            have hserf : m3a q' ("SERIAL".data
                ++ substC m2 (((c :: cs).take ((c :: cs).length - s.length)).getLast?) s)
                = none :=
              m3a_none_of_head (by decide) _ q'
            rw [substC_m3a_word_chunk ("SERIAL".data) (by decide) q' _ hserf]
            have hm3M : m3a q ((m0 :: M') ++ s) = none := by
              rw [← hMeq]
              exact hm3
            have hLin : substC m3a q (c :: cs)
                = (m0 :: M') ++ substC m3a (lastPrev q (m0 :: M')) s := by
              rw [hMeq]
              exact substC_m3a_word_chunk (m0 :: M') hMw q s hm3M
            rw [hLin]
            rw [show ((m0 :: M') ++ substC m3a (lastPrev q (m0 :: M')) s : Str)
                = m0 :: (M' ++ substC m3a (lastPrev q (m0 :: M')) s) from rfl]
            rw [substC_cons_some m2 m2_mok
              (show m2 p (m0 :: (M' ++ substC m3a (lastPrev q (m0 :: M')) s))
                  = some ("SERIAL".data, substC m3a (lastPrev q (m0 :: M')) s)
                from htr p (substC m3a (lastPrev q (m0 :: M')) s))]
            obtain ⟨w, hw1, hw2⟩ := @lastPrev_word q (m0 :: M') (by simp) hMw
            rw [hw1]
            rw [show lastPrev q' ("SERIAL".data : Str) = some 'L' from rfl]
            refine congrArg (fun t : Str => "SERIAL".data ++ t) ?_
            exact ih s hslen _ _ (some w) (some 'L')
              (by show (!isWordChar w) = (!isWordChar 'L'); rw [hw2]; decide)
        | none =>
          have hcs : cs.length ≤ n := by
            have h5 := hl
            simp only [List.length_cons] at h5
            omega
          rw [substC_cons_none m3a hm3]
          rw [substC_cons_none m2 hm2]
          have hm2p : m2 p (c :: cs) = none := by
            rw [m2_prev_irrel p p']
            exact hm2
          have hLfail : m2 p (c :: substC m3a (some c) cs) = none := by
            have h6 := m2_lift2 p (c :: cs) (show isWordChar 'x' = true by decide)
            rw [substC_cons_none m3a (m3a_none_of_word_prev (by decide) (c :: cs))] at h6
            rw [h6, hm2p]
            rfl
          rw [substC_cons_none m2 hLfail]
          have hRfail : m3a q' (c :: substC m2 (some c) cs) = none := by
            have h7 := m3a_none_m2scan hm3' p'
            rw [substC_cons_none m2 hm2] at h7
            exact h7
          rw [substC_cons_none m3a hRfail]
          exact congrArg (fun t : Str => c :: t)
            (ih cs hcs (some c) (some c) (some c) (some c) rfl)

/-- Rules 1, 2 and 3 commute as a block: running rule 1 after rules 3 and 2
gives the same text as running it before them. -/
theorem swap13_comm (l : Str) :
    rule1 (rule2 (rule3 l)) = rule3 (rule2 (rule1 l)) := by
  show r1C (substC m2 none (substC m3b none (substC m3a none l)))
      = substC m3b none (substC m3a none (substC m2 none (r1C l)))
  rw [dead_m3b l.length l (Nat.le_refl _) none none rfl]
  rw [dead_m3b (substC m2 none (r1C l)).length (substC m2 none (r1C l))
    (Nat.le_refl _) none none rfl]
  rw [comm_r1_m2]
  rw [comm_r1_m3a]
  rw [sim_m2_m3a l.length l (Nat.le_refl _) none none none none rfl]

/-- Exchanging rules 1 and 3 in the pipeline changes no output. -/
theorem rewriteSwapL_eq (l : Str) : rewriteSwapL l = rewriteL l := by
  unfold rewriteSwapL rewriteL
  rw [swap13_comm]

/-! ## Theorems about the claims -/

/-- C1 (counterexample): on the input `age INT UNSIGNED` the pipeline's
output does not contain the fragment `age UNSIGNED CHECK (UNSIGNED >= 0)`
claimed by the specification: rule 3 has already rewritten `INT` to
`INTEGER` before rule 5 runs, and rule 5's middle group captures
`INTEGER`. -/
theorem age_unsigned_fragment_absent :
    occursIn "age UNSIGNED CHECK (UNSIGNED >= 0)".data
      (rewriteL "age INT UNSIGNED".data) = false := by
  decide

/-- C1 (amended): for the input `age INT UNSIGNED` the pipeline produces
exactly `age INTEGER CHECK (INTEGER >= 0)`; the middle captured group of
rule 5's pattern supplies the name `INTEGER` used in the CHECK clause. -/
theorem rewrite_age_int_unsigned :
    rewrite "age INT UNSIGNED" = "age INTEGER CHECK (INTEGER >= 0)" := by
  decide

/-- C2 (counterexample): in rule 5, after the substitution step for the
first match alone, the later textually identical occurrence has not been
left untouched: the match text no longer occurs anywhere, because
`str.replace` rewrote every occurrence at once. -/
theorem rule5_step_touches_later_occurrence :
    occursIn "x INTEGER UNSIGNED".data
      (rule5Upto 1 "x INTEGER UNSIGNED x INTEGER UNSIGNED".data) = false := by
  decide

/-- C2 (amended): each substitution step of rule 5 replaces every
occurrence of the matched text in the working text, so after the first
iteration on a text with two identical matches both are rewritten, and the
remaining iterations change nothing. -/
theorem rule5_step_replaces_all_occurrences :
    rule5Upto 1 "x INTEGER UNSIGNED x INTEGER UNSIGNED".data
        = "x INTEGER CHECK (INTEGER >= 0) x INTEGER CHECK (INTEGER >= 0)".data ∧
      rule5 "x INTEGER UNSIGNED x INTEGER UNSIGNED".data
        = "x INTEGER CHECK (INTEGER >= 0) x INTEGER CHECK (INTEGER >= 0)".data := by
  constructor
  · decide
  · decide

/-- C3 (code evaluated at the failing input): the pipeline rewrites
`age INT(5)` to `age INTEGER(5)` — the parenthesised precision survives,
because line 31's whole-word substitution turns `INT(` into `INTEGER(`
before line 32's `INT(precision)` substitution can ever match. -/
theorem rewrite_int_precision_kept :
    rewrite "age INT(5)" = "age INTEGER(5)" := by
  decide

/-- C4 (code evaluated at the failing input): with a SEPARATOR clause the
greedy first group swallows the clause, so the separator defaults to a
comma; without the clause the claimed default comma does appear. -/
theorem rewrite_group_concat_eval :
    rewrite "GROUP_CONCAT(name SEPARATOR '; ')"
        = "STRING_AGG(name SEPARATOR '; ', ',')" ∧
      rewrite "GROUP_CONCAT(name)" = "STRING_AGG(name, ',')" := by
  constructor
  · decide
  · decide

/-- C5 (counterexample): the pipeline does not map
`ENGINE=InnoDB DEFAULT CHARSET=utf8` to the empty string. -/
theorem rewrite_engine_charset_not_empty :
    rewrite "ENGINE=InnoDB DEFAULT CHARSET=utf8" ≠ "" := by
  decide

/-- C5 (amended): the pipeline maps `ENGINE=InnoDB DEFAULT CHARSET=utf8`
to a single space — both clauses are removed, but the space separating
them is untouched. -/
theorem rewrite_engine_charset_single_space :
    rewrite "ENGINE=InnoDB DEFAULT CHARSET=utf8" = " " := by
  decide

/-- C7: on every input string the pipeline terminates with a string
result, and that result is exactly the strict sequential composition of
all sixteen rules in their fixed order. -/
theorem rewrite_total_pipeline (s : String) :
    ∃ t : String, rewrite s = t ∧
      rewrite s = String.mk (pipelineSteps.foldl (fun acc f => f acc) s.data) := by
  refine ⟨rewrite s, rfl, ?_⟩
  simp only [pipelineSteps, List.foldl]
  rfl

/-- C8 (counterexample): the pipeline is not idempotent: rule 14 consumes
the whitespace on both sides of `REGEXP`, so on ` REGEXP REGEXP ` the
first pass rewrites only the first occurrence and a second pass still
changes the text. -/
theorem rewrite_not_idempotent :
    rewrite (rewrite " REGEXP REGEXP ") ≠ rewrite " REGEXP REGEXP " := by
  decide

/-- C8 (amended): a second application of the pipeline changes nothing on
each of the specification's literal scenarios — their first-pass outputs
are backtick-free, already `INTEGER`-typed, already lower-case-boolean,
and rule 5 finds no `UNSIGNED` token in them — but idempotence fails in
general (see the adjacent-`REGEXP` counterexample). -/
theorem rewrite_second_pass_fixed_on_scenarios :
    rewrite (rewrite "`users`") = rewrite "`users`" ∧
      rewrite (rewrite "id INT AUTO_INCREMENT") = rewrite "id INT AUTO_INCREMENT" ∧
      rewrite (rewrite "age INT UNSIGNED") = rewrite "age INT UNSIGNED" ∧
      rewrite (rewrite "SELECT IFNULL(a,b)") = rewrite "SELECT IFNULL(a,b)" ∧
      rewrite (rewrite "LIMIT 10, 5") = rewrite "LIMIT 10, 5" ∧
      rewrite (rewrite "GROUP_CONCAT(name SEPARATOR '; ')")
        = rewrite "GROUP_CONCAT(name SEPARATOR '; ')" ∧
      rewrite (rewrite "GROUP_CONCAT(name)") = rewrite "GROUP_CONCAT(name)" ∧
      rewrite (rewrite "ENGINE=InnoDB DEFAULT CHARSET=utf8")
        = rewrite "ENGINE=InnoDB DEFAULT CHARSET=utf8" := by
  refine ⟨?_, ?_, ?_, ?_, ?_, ?_, ?_, ?_⟩ <;> decide

/-- C9: the conversion is a pure, deterministic function of the input
text: whenever two abstract file systems provide the same content, the
conversion returns the same output, whatever the paths and whatever else
either file system contains. -/
theorem convert_pure_of_same_content (fs fs' : String → Option String)
    (p q : String) (h : fs p = fs' q) :
    convertText fs p = convertText fs' q := by
  unfold convertText
  rw [h]

/-- C9 (witness): two concrete file systems that agree only on the content
stored under different paths yield the same conversion result. -/
theorem convert_pure_of_same_content_witness :
    convertText fsOne "a.sql" = convertText fsTwo "b.sql" :=
  convert_pure_of_same_content fsOne fsTwo "a.sql" "b.sql" (by decide)

/-- C10 (counterexample): a line ending in `-- ` (hyphens and a space)
followed by a newline is left unchanged — rule 16 consumes the space as
its whitespace character, so the newline survives and the lines are not
joined. -/
theorem rule16_space_before_newline_unchanged :
    rewrite "x -- \ny" = "x -- \ny" := by
  decide

/-- C10 (amended): rule 16 matches a double hyphen followed by any single
whitespace character and replaces that character by a space — so `--`
directly followed by a tab or newline is normalised (joining a line that
ends in bare `--` to the next) — but when `--` is already followed by a
space, that space is the match and a following newline is untouched. -/
theorem rule16_any_whitespace :
    (∀ c : Char, isSpaceChar c = true →
      rewriteL ('x' :: ' ' :: '-' :: '-' :: c :: ['y']) = "x -- y".data) ∧
      rewrite "x -- \ny" = "x -- \ny" := by
  constructor
  · intro c hc
    have hcases : ((((c = ' ' ∨ c = '\t') ∨ c = '\n') ∨ c = '\r')
        ∨ c = Char.ofNat 11) ∨ c = Char.ofNat 12 := by
      simpa [isSpaceChar] using hc
    rcases hcases with ((((h | h) | h) | h) | h) | h <;> subst h <;> decide
  · decide

/-- C10 (witness): the amended rule-16 statement applied at the tab
character. -/
theorem rule16_any_whitespace_witness :
    rewriteL ('x' :: ' ' :: '-' :: '-' :: '\t' :: ['y']) = "x -- y".data :=
  rule16_any_whitespace.1 '\t' (by decide)

/-- C6 (counterexample): no input — in particular none containing a
backtick-quoted identifier literally named int — separates the pipeline
variant with rules 1 and 3 exchanged from the original pipeline. -/
theorem swap13_no_separating_input :
    ¬ ∃ s : String, occursIn (tickC :: 'i' :: 'n' :: 't' :: [tickC]) s.data = true
      ∧ rewriteSwap s ≠ rewrite s := by
  rintro ⟨s, _, hne⟩
  exact hne (congrArg String.mk (rewriteSwapL_eq s.data))

/-- C6 (amended): exchanging rules 1 (backtick quoting) and 3 (INT →
INTEGER) in the pipeline changes the output on no input whatsoever: rule
3's word boundary treats a double quote exactly as it treats a backtick,
rule 2's consumed text and replacement consist of word characters on both
sides, and rule 3's second substitution can never fire after its first, so
rules 1, 2, 3 commute as a block. -/
theorem rewrite_swap13_equal : ∀ s : String, rewriteSwap s = rewrite s :=
  fun s => congrArg String.mk (rewriteSwapL_eq s.data)

end Postgrace

